import Mathlib

/-!
Verification of the folder-hierarchy and sharing engine of the File-Uploader
backend.  The definitions below are a shallow embedding of the relevant
route handlers:

* `src/backend/src/routes/folders.js`    — folder create / update / delete,
  `checkCircularReference`, `deleteFolderRecursively`;
* `src/backend/src/routes/share.js`      — public share resolution and the
  shared-file ascent check;
* `src/backend/src/routes/shareLinks.js` — share-link creation and duration
  parsing;
* the file routes (upload batch loop with Cloudinary cleanup).

The Prisma store is modelled as lists of records; `prisma.folder.findUnique`
becomes `List.find?` on the id.  Database-generated ids are passed in
explicitly (with freshness as a side condition where it matters).
Timestamps are naturals (milliseconds since the epoch); the JS
`setDate`/`setHours` calendar arithmetic is modelled as adding a fixed
number of milliseconds per day/hour, which preserves the order facts the
claims are about.  JS string `.length` counts UTF-16 units while Lean's
`String.length` counts code points; the two agree on all inputs exercised
here.  Fallible routes return `Except`: an `error` result models the route
returning before reaching its (single) database write.
-/

set_option maxHeartbeats 1000000

namespace FileUploader

open Relation

/-- A row of the `folders` table (fields the engine reads). -/
structure FolderT where
  id : Nat
  name : String
  ownerId : Nat
  parentId : Option Nat
deriving DecidableEq

/-- A row of the `files` table (fields the engine reads). -/
structure FileT where
  id : Nat
  name : String
  mimetype : String
  size : Nat
  cloudUrl : String
  publicId : String
  folderId : Option Nat
  ownerId : Nat
deriving DecidableEq

/-- A row of the `share_links` table. -/
structure ShareLinkT where
  id : Nat
  token : String
  folderId : Nat
  expiresAt : Nat
  createdAt : Nat
deriving DecidableEq

/-- The durable state: the folder and file tables. -/
structure StoreState where
  folders : List FolderT
  files : List FileT
deriving DecidableEq

/-- The error kinds surfaced by the routes (4xx/5xx responses). -/
inductive Err where
  | validationError
  | parentNotFound
  | forbidden
  | duplicateName
  | selfParent
  | circularReference
  | notFound
  | notEmpty (childrenCount filesCount : Nat)
  | expired
  | accessDenied
  | serverError
deriving DecidableEq

/-- `prisma.folder.findUnique({ where: { id } })`. -/
def lookupFolder (fs : List FolderT) (i : Nat) : Option FolderT :=
  fs.find? (fun f => f.id == i)

/-- `prisma.file.findUnique({ where: { id } })`. -/
def lookupFile (hs : List FileT) (i : Nat) : Option FileT :=
  hs.find? (fun h => h.id == i)

/-- `prisma.shareLink.findFirst({ where: { token } })`. -/
def findShareLink (ls : List ShareLinkT) (tok : String) : Option ShareLinkT :=
  ls.find? (fun l => l.token == tok)

/-- The ids present in the folder table. -/
def idsOf (fs : List FolderT) : List Nat := fs.map (·.id)

/-- The stored parent edge: folder `a` exists and has parent `b`. -/
def pRel (fs : List FolderT) (a b : Nat) : Prop :=
  ∃ f, lookupFolder fs a = some f ∧ f.parentId = some b

/-- `checkCircularReference` from `folders.js` (router.put): walk the parent
chain upward from `cur`, returning `true` iff `targetId` is met.  The JS
recursion is unbounded; a fuel argument makes it structural.  Missing
folders and null parents terminate the walk with `false`, as in the source. -/
def checkCircularReference (fs : List FolderT) : Nat → Option Nat → Nat → Bool
  | 0, _, _ => false
  | _, none, _ => false
  | fuel + 1, some cid, targetId =>
    match lookupFolder fs cid with
    | none => false
    | some parent =>
      if parent.id = targetId then true
      else checkCircularReference fs fuel parent.parentId targetId

/-- The `while (currentFolderId)` ascent loop shared by
`router.get('/:token/files/:fileId')` in `share.js`: look the current folder
up, succeed on meeting `targetId`, move to the parent otherwise. -/
def sharedChainWalk (fs : List FolderT) : Nat → Option Nat → Nat → Bool
  | 0, _, _ => false
  | _, none, _ => false
  | fuel + 1, some cid, targetId =>
    match lookupFolder fs cid with
    | none => false
    | some folder =>
      if folder.id = targetId then true
      else sharedChainWalk fs fuel folder.parentId targetId

/-- The full membership check of `share.js`: a direct hit on the shared
folder id first, then the ascent loop. -/
def inSharedFolderCheck (fs : List FolderT) (fuel : Nat)
    (fileFolderId : Option Nat) (sharedFolderId : Nat) : Bool :=
  match fileFolderId with
  | none => false
  | some c =>
    if c = sharedFolderId then true
    else sharedChainWalk fs fuel (some c) sharedFolderId

/-- The spec's bounded ascent: walking `parent` from `cid` reaches a null
parent within `fuel` steps (dangling parents and exhausted fuel fail). -/
def reachesNull (fs : List FolderT) : Nat → Nat → Bool
  | 0, _ => false
  | fuel + 1, cid =>
    match lookupFolder fs cid with
    | none => false
    | some f =>
      match f.parentId with
      | none => true
      | some p => reachesNull fs fuel p

/-- The JS `String.prototype.trim()` on a folder name, modelled over the
character list so that it evaluates by kernel reduction (`String.trim`
itself is implemented by well-founded recursion and does not). -/
def jsTrim (s : String) : String :=
  ⟨((s.data.dropWhile Char.isWhitespace).reverse.dropWhile Char.isWhitespace).reverse⟩

/-- `prisma.folder.findFirst` duplicate-name probe used by the create route:
a sibling with this owner, parent scope and (trimmed) name exists. -/
def siblingNameTaken (fs : List FolderT) (ownerId : Nat) (nm : String)
    (parentId : Option Nat) : Bool :=
  fs.any (fun f => f.name == nm && f.ownerId == ownerId && f.parentId == parentId)

/-- The duplicate probe of the update route (`NOT: { id: folderId }`). -/
def siblingNameTakenExcept (fs : List FolderT) (ownerId : Nat) (nm : String)
    (parentId : Option Nat) (folderId : Nat) : Bool :=
  fs.any (fun f =>
    f.name == nm && f.ownerId == ownerId && f.parentId == parentId && f.id != folderId)

/-- `router.post('/')` of `folders.js`: validate the name, validate the
parent when given (the JS truthiness test on `parentId` coincides with the
`Option` match for the positive SERIAL ids the store produces), reject
sibling duplicates, insert.  `newId` is the id the database assigns. -/
def createFolder (σ : StoreState) (ownerId : Nat) (name : String)
    (parentId : Option Nat) (newId : Nat) : Except Err StoreState :=
  if (jsTrim name).length = 0 then .error .validationError
  else if 255 < (jsTrim name).length then .error .validationError
  else
    match parentId with
    | some p =>
      match lookupFolder σ.folders p with
      | none => .error .parentNotFound
      | some parentFolder =>
        if parentFolder.ownerId = ownerId then
          if siblingNameTaken σ.folders ownerId (jsTrim name) parentId then
            .error .duplicateName
          else
            .ok { σ with
                  folders := σ.folders ++ [⟨newId, jsTrim name, ownerId, parentId⟩] }
        else .error .forbidden
    | none =>
      if siblingNameTaken σ.folders ownerId (jsTrim name) none then
        .error .duplicateName
      else
        .ok { σ with folders := σ.folders ++ [⟨newId, jsTrim name, ownerId, none⟩] }

/-- The `prisma.folder.update` write of the update route: set `name` and
`parentId` on the folder with id `folderId`. -/
def applyUpdate (σ : StoreState) (folderId : Nat) (nm : String)
    (newParentId : Option Nat) : StoreState :=
  { σ with
    folders := σ.folders.map (fun f =>
      if f.id = folderId then { f with name := nm, parentId := newParentId } else f) }

/-- `router.put('/:id')` of `folders.js`, after the `verifyFolderOwnership`
middleware.  `parentIdInput = none` models a request whose `parentId` is
omitted, `null` or the empty string — `newParentId` then stays `null` and is
written as such.  The circular-reference walk gets fuel `|folders| + 1`,
enough to exhaust any acyclic chain. -/
def updateFolder (σ : StoreState) (userId folderId : Nat) (name : String)
    (parentIdInput : Option Nat) : Except Err StoreState :=
  match lookupFolder σ.folders folderId with
  | none => .error .notFound
  | some folder =>
    if folder.ownerId ≠ userId then .error .forbidden
    else if (jsTrim name).length = 0 then .error .validationError
    else if 255 < (jsTrim name).length then .error .validationError
    else
      match parentIdInput with
      | none =>
        if siblingNameTakenExcept σ.folders userId (jsTrim name) none folderId then
          .error .duplicateName
        else .ok (applyUpdate σ folderId (jsTrim name) none)
      | some np =>
        if np = folderId then .error .selfParent
        else
          match lookupFolder σ.folders np with
          | none => .error .parentNotFound
          | some parentFolder =>
            if parentFolder.ownerId ≠ userId then .error .forbidden
            else if checkCircularReference σ.folders (σ.folders.length + 1)
                (some np) folderId then .error .circularReference
            else if siblingNameTakenExcept σ.folders userId (jsTrim name)
                (some np) folderId then .error .duplicateName
            else .ok (applyUpdate σ folderId (jsTrim name) (some np))

/-- `prisma.folder.delete({ where: { id } })` together with the schema's
`onDelete: Cascade` from `File.folder`: the folder row goes away and so do
all file rows referencing it.  (The self-referencing folder cascade is
vacuous at every call site below: children are always removed first.) -/
def removeFolderCascade (σ : StoreState) (folderId : Nat) : StoreState :=
  { folders := σ.folders.filter (fun f => !(f.id == folderId)),
    files := σ.files.filter (fun h => !(h.folderId == some folderId)) }

/-- The `for (const child of children)` loop of `deleteFolderRecursively`:
run `del` on each child id in order, threading the store through and
concatenating the deletion traces. -/
def runChildren (del : StoreState → Nat → StoreState × List Nat) :
    StoreState → List Nat → StoreState × List Nat
  | σ, [] => (σ, [])
  | σ, c :: cs =>
    let r₁ := del σ c
    let r₂ := runChildren del r₁.1 cs
    (r₂.1, r₁.2 ++ r₂.2)

/-- `deleteFolderRecursively` from `folders.js`: enumerate the direct child
folders (same owner), recursively delete each, then delete the folder itself
(cascading its files).  The second component is the trace of folder ids in
deletion order.  Fuel makes the unbounded JS recursion structural. -/
def deleteFolderRecursively : Nat → StoreState → Nat → Nat → StoreState × List Nat
  | 0, σ, _, _ => (σ, [])
  | fuel + 1, σ, folderId, ownerId =>
    let children :=
      (σ.folders.filter
        (fun f => f.parentId == some folderId && f.ownerId == ownerId)).map (·.id)
    let r := runChildren (fun σ' c => deleteFolderRecursively fuel σ' c ownerId)
      σ children
    (removeFolderCascade r.1 folderId, r.2 ++ [folderId])

/-- `router.delete('/:id')` of `folders.js`, after `verifyFolderOwnership`:
count direct child folders and files; refuse with the counts when non-empty
and `force` is not set; otherwise delete (recursively when forced).  Returns
the new state and the trace of deleted folder ids. -/
def deleteFolder (σ : StoreState) (userId folderId : Nat) (force : Bool) :
    Except Err (StoreState × List Nat) :=
  match lookupFolder σ.folders folderId with
  | none => .error .notFound
  | some folder =>
    if folder.ownerId ≠ userId then .error .forbidden
    else
      let childrenCount :=
        σ.folders.countP (fun f => f.parentId == some folderId && f.ownerId == userId)
      let filesCount :=
        σ.files.countP (fun h => h.folderId == some folderId && h.ownerId == userId)
      if (0 < childrenCount ∨ 0 < filesCount) ∧ force = false then
        .error (.notEmpty childrenCount filesCount)
      else if force then
        .ok (deleteFolderRecursively (σ.folders.length + 1) σ folderId userId)
      else
        .ok (removeFolderCascade σ folderId, [folderId])

/-- Milliseconds per hour (`setHours(getHours() + n)` modelled linearly). -/
def msPerHour : Nat := 3600000

/-- Milliseconds per day (`setDate(getDate() + n)` modelled linearly). -/
def msPerDay : Nat := 86400000

/-- Digit-string value, as `parseInt` computes it on an all-digit string. -/
def natOfDigits (cs : List Char) : Nat :=
  cs.foldl (fun a c => a * 10 + (c.toNat - '0'.toNat)) 0

/-- The `duration.match(/^(\d+)([dh])$/)` probe of `shareLinks.js`: a
non-empty run of digits followed by a single `d` or `h`. -/
def parseDuration (d : String) : Option (Nat × Char) :=
  let cs := d.data
  match cs.getLast? with
  | none => none
  | some u =>
    if u = 'd' ∨ u = 'h' then
      let digits := cs.dropLast
      if digits ≠ [] ∧ digits.all Char.isDigit then some (natOfDigits digits, u)
      else none
    else none

/-- Expiry computation of `router.post('/folders/:id/share')`: add the parsed
duration to `now`; an unmatched duration string falls back to 7 days. -/
def computeExpiry (now : Nat) (d : String) : Nat :=
  match parseDuration d with
  | some (v, u) => if u = 'd' then now + v * msPerDay else now + v * msPerHour
  | none => now + 7 * msPerDay

/-- `router.post('/folders/:id/share')` of `shareLinks.js`: ownership-check
the folder, compute the expiry from the duration string, persist the link.
`now` is the request time; the row's `createdAt` default is the same moment.
`token`/`newId` stand for the generated uuid and the database id. -/
def createShareLink (σ : StoreState) (userId folderId : Nat) (duration : String)
    (now : Nat) (token : String) (newId : Nat) : Except Err ShareLinkT :=
  match lookupFolder σ.folders folderId with
  | none => .error .notFound
  | some folder =>
    if folder.ownerId ≠ userId then .error .forbidden
    else .ok ⟨newId, token, folderId, computeExpiry now duration, now⟩

/-- `router.get('/:token')` of `share.js`, up to the point where the folder
contents are expanded: find the link by token, fail `notFound` when absent,
fail `expired` when `expiresAt < now`, succeed otherwise. -/
def resolveShare (ls : List ShareLinkT) (now : Nat) (tok : String) :
    Except Err ShareLinkT :=
  match findShareLink ls tok with
  | none => .error .notFound
  | some shareLink =>
    if shareLink.expiresAt < now then .error .expired
    else .ok shareLink

/-- `router.get('/:token/files/:fileId')` of `share.js`: resolve the token,
check expiry, load the file, then serve it only when the ascent from the
file's folder reaches the shared folder.  The unbounded JS `while` loop gets
fuel `|folders| + 1`. -/
def getSharedFile (σ : StoreState) (ls : List ShareLinkT) (now : Nat)
    (tok : String) (fileId : Nat) : Except Err FileT :=
  match findShareLink ls tok with
  | none => .error .notFound
  | some shareLink =>
    if shareLink.expiresAt < now then .error .expired
    else
      match lookupFile σ.files fileId with
      | none => .error .notFound
      | some file =>
        if inSharedFolderCheck σ.folders (σ.folders.length + 1)
            file.folderId shareLink.folderId then .ok file
        else .error .accessDenied

/-- One entry of a multer upload batch (the fields the route reads:
`originalname`, `mimetype`, `size`, `path` = Cloudinary URL, `filename` =
Cloudinary public id). -/
structure UploadEntry where
  originalname : String
  mimetype : String
  size : Nat
  path : String
  filename : String
deriving DecidableEq

/-- The JSON body of a successful `POST /api/files/upload` response — these
four fields and nothing else. -/
structure UploadResult where
  message : String
  files : List FileT
  uploadedCount : Nat
  totalSize : Nat
deriving DecidableEq

/-- The `for (const file of req.files)` loop of the upload route: commit each
file's metadata row; when the commit fails (`dbFails` says which indices do),
destroy the already-uploaded Cloudinary blob instead.  Returns the new state,
the saved rows in order, and the publicIds of destroyed blobs. -/
def uploadLoop (ownerId : Nat) (folderId : Option Nat) (newId : Nat → Nat)
    (dbFails : Nat → Bool) :
    List UploadEntry → Nat → StoreState → StoreState × List FileT × List String
  | [], _, σ => (σ, [], [])
  | e :: rest, i, σ =>
    if dbFails i then
      let r := uploadLoop ownerId folderId newId dbFails rest (i + 1) σ
      (r.1, r.2.1, e.filename :: r.2.2)
    else
      let f : FileT :=
        ⟨newId i, e.originalname, e.mimetype, e.size, e.path, e.filename,
          folderId, ownerId⟩
      let r := uploadLoop ownerId folderId newId dbFails rest (i + 1)
        { σ with files := σ.files ++ [f] }
      (r.1, f :: r.2.1, r.2.2)

/-- `router.post('/upload')` of the file routes: validate the target folder
(destroying every uploaded blob on a failed validation), run the commit loop,
answer 500 when nothing was saved, and otherwise answer with the saved subset
and its count.  Errors carry the publicIds of the blobs destroyed during
cleanup. -/
def uploadFiles (σ : StoreState) (ownerId : Nat) (folderId : Option Nat)
    (entries : List UploadEntry) (newId : Nat → Nat) (dbFails : Nat → Bool) :
    Except (Err × List String) (StoreState × UploadResult × List String) :=
  match folderId with
  | some c =>
    match lookupFolder σ.folders c with
    | none => .error (.parentNotFound, entries.map (·.filename))
    | some folder =>
      if folder.ownerId ≠ ownerId then .error (.forbidden, entries.map (·.filename))
      else if entries = [] then .error (.validationError, [])
      else
        let r := uploadLoop ownerId folderId newId dbFails entries 0 σ
        if r.2.1 = [] then .error (.serverError, r.2.2)
        else
          .ok (r.1,
            ⟨"Successfully uploaded " ++ toString r.2.1.length ++ " file(s)",
              r.2.1, r.2.1.length, (r.2.1.map (·.size)).sum⟩,
            r.2.2)
  | none =>
    if entries = [] then .error (.validationError, [])
    else
      let r := uploadLoop ownerId folderId newId dbFails entries 0 σ
      if r.2.1 = [] then .error (.serverError, r.2.2)
      else
        .ok (r.1,
          ⟨"Successfully uploaded " ++ toString r.2.1.length ++ " file(s)",
            r.2.1, r.2.1.length, (r.2.1.map (·.size)).sum⟩,
          r.2.2)

/-! ### Invariants of the folder store -/

/-- Every stored parent reference names an existing folder of the same owner
(the spec's "`parentId`, if set, must reference a Folder owned by the same
`ownerId`"). -/
def ParentsOk (fs : List FolderT) : Prop :=
  ∀ f ∈ fs, ∀ p, f.parentId = some p →
    ∃ g, g ∈ fs ∧ g.id = p ∧ g.ownerId = f.ownerId

/-- Every stored file's folder reference names an existing folder of the
same owner. -/
def FilesOk (fs : List FolderT) (hs : List FileT) : Prop :=
  ∀ h ∈ hs, ∀ c, h.folderId = some c →
    ∃ g, g ∈ fs ∧ g.id = c ∧ g.ownerId = h.ownerId

/-- No folder is its own strict ancestor. -/
def AcyclicP (fs : List FolderT) : Prop :=
  ∀ x, ¬ Relation.TransGen (pRel fs) x x

/-- `x` lies in the subtree rooted at `r`: the parent chain from `x`
reaches `r`. -/
def Sub (fs : List FolderT) (r x : Nat) : Prop :=
  Relation.ReflTransGen (pRel fs) x r

/-- The executable store invariant: distinct ids, well-formed parent and
file references, and every folder's parent chain reaching a null parent
within `|folders| + 1` steps. -/
def Inv (σ : StoreState) : Bool :=
  decide (idsOf σ.folders).Nodup &&
  σ.folders.all (fun f =>
    match f.parentId with
    | none => true
    | some p => σ.folders.any (fun g => g.id == p && g.ownerId == f.ownerId)) &&
  σ.folders.all (fun f => reachesNull σ.folders (σ.folders.length + 1) f.id) &&
  σ.files.all (fun h =>
    match h.folderId with
    | none => true
    | some c => σ.folders.any (fun g => g.id == c && g.ownerId == h.ownerId))

/-- The proof-level form of the invariant (equivalent to `Inv` below the
walk-adequacy lemmas): distinct ids, well-formed references, acyclicity. -/
def InvP (σ : StoreState) : Prop :=
  (idsOf σ.folders).Nodup ∧ ParentsOk σ.folders ∧ AcyclicP σ.folders ∧
    FilesOk σ.folders σ.files

/-- The store as seen after the update route handles a request: the only
database write (`prisma.folder.update`) happens on the success path, every
error returns first. -/
def runUpdate (σ : StoreState) (u fid : Nat) (nm : String)
    (pin : Option Nat) : StoreState :=
  match updateFolder σ u fid nm pin with
  | .ok σ' => σ'
  | .error _ => σ

/-- What `deleteFolderRecursively` achieves on the subtree rooted at `r`:
exactly the subtree's folders and their files are removed, and the deletion
trace lists exactly the subtree, each folder after all of its strict
descendants, ending with `r` itself. -/
def RecSpec (σ : StoreState) (r : Nat) (res : StoreState × List Nat) : Prop :=
  res.1.folders.Sublist σ.folders ∧ res.1.files.Sublist σ.files ∧
  (∀ g ∈ σ.folders, (g ∈ res.1.folders ↔ ¬ Sub σ.folders r g.id)) ∧
  (∀ h ∈ σ.files, (h ∈ res.1.files ↔
    ¬ ∃ c, h.folderId = some c ∧ Sub σ.folders r c)) ∧
  (∀ x, x ∈ res.2 ↔ Sub σ.folders r x) ∧
  res.2.getLast? = some r ∧ res.2.Nodup ∧
  res.2.Pairwise (fun x y => ¬ Relation.TransGen (pRel σ.folders) y x)

/-- The same for the child loop `runChildren`, over a list of
pairwise-subtree-disjoint roots. -/
def RecSpecL (σ : StoreState) (cs : List Nat) (res : StoreState × List Nat) :
    Prop :=
  res.1.folders.Sublist σ.folders ∧ res.1.files.Sublist σ.files ∧
  (∀ g ∈ σ.folders, (g ∈ res.1.folders ↔ ¬ ∃ c ∈ cs, Sub σ.folders c g.id)) ∧
  (∀ h ∈ σ.files, (h ∈ res.1.files ↔
    ¬ ∃ c ∈ cs, ∃ cc, h.folderId = some cc ∧ Sub σ.folders c cc)) ∧
  (∀ x, x ∈ res.2 ↔ ∃ c ∈ cs, Sub σ.folders c x) ∧
  res.2.Nodup ∧
  res.2.Pairwise (fun x y => ¬ Relation.TransGen (pRel σ.folders) y x)

/-- One state transition of the folder store: a successful folder create
(with a database-fresh id), update (rename and/or move), or delete. -/
inductive Step : StoreState → StoreState → Prop where
  | create {σ σ' : StoreState} {ownerId newId : Nat} {name : String}
      {parentId : Option Nat} :
      newId ∉ idsOf σ.folders →
      createFolder σ ownerId name parentId newId = .ok σ' → Step σ σ'
  | update {σ σ' : StoreState} {userId folderId : Nat} {name : String}
      {parentIdInput : Option Nat} :
      updateFolder σ userId folderId name parentIdInput = .ok σ' → Step σ σ'
  | delete {σ σ' : StoreState} {userId folderId : Nat} {force : Bool}
      {tr : List Nat} :
      deleteFolder σ userId folderId force = .ok (σ', tr) → Step σ σ'

/-- The empty store. -/
def emptyState : StoreState := ⟨[], []⟩

/-- States reachable from the empty store by folder operations. -/
def Reachable (σ : StoreState) : Prop :=
  Relation.ReflTransGen Step emptyState σ

/-! ### Basic facts about lookups and the parent relation -/

theorem lookupFolder_eq_some {fs : List FolderT} {i : Nat} {f : FolderT}
    (h : lookupFolder fs i = some f) : f ∈ fs ∧ f.id = i := by
  refine ⟨List.mem_of_find?_eq_some h, ?_⟩
  have := List.find?_some h
  simpa using this

theorem id_inj {fs : List FolderT} (hnd : (idsOf fs).Nodup) {f g : FolderT}
    (hf : f ∈ fs) (hg : g ∈ fs) (hid : f.id = g.id) : f = g :=
  List.inj_on_of_nodup_map hnd hf hg hid

theorem lookupFolder_of_mem {fs : List FolderT} (hnd : (idsOf fs).Nodup)
    {f : FolderT} (hf : f ∈ fs) : lookupFolder fs f.id = some f := by
  cases hfind : lookupFolder fs f.id with
  | none =>
    exfalso
    have := List.find?_eq_none.mp hfind f hf
    simp at this
  | some g =>
    obtain ⟨hgmem, hgid⟩ := lookupFolder_eq_some hfind
    rw [id_inj hnd hgmem hf hgid]

theorem mem_idsOf {fs : List FolderT} {x : Nat} :
    x ∈ idsOf fs ↔ ∃ f, f ∈ fs ∧ f.id = x := by
  simp [idsOf, List.mem_map, eq_comm]

theorem lookupFolder_isSome_of_mem_ids {fs : List FolderT} {x : Nat}
    (hnd : (idsOf fs).Nodup) (hx : x ∈ idsOf fs) :
    ∃ f, lookupFolder fs x = some f ∧ f ∈ fs ∧ f.id = x := by
  obtain ⟨f, hf, hid⟩ := mem_idsOf.mp hx
  subst hid
  exact ⟨f, lookupFolder_of_mem hnd hf, hf, rfl⟩

theorem pRel_right_unique (fs : List FolderT) : Relator.RightUnique (pRel fs) := by
  rintro a b c ⟨f, hf, hfp⟩ ⟨g, hg, hgp⟩
  rw [hf] at hg
  cases hg
  rw [hfp] at hgp
  cases hgp
  rfl

theorem pRel_src_mem {fs : List FolderT} {a b : Nat} (h : pRel fs a b) :
    a ∈ idsOf fs := by
  obtain ⟨f, hf, _⟩ := h
  obtain ⟨hmem, hid⟩ := lookupFolder_eq_some hf
  exact mem_idsOf.mpr ⟨f, hmem, hid⟩

theorem pRel_tgt_mem {fs : List FolderT} {a b : Nat} (hpo : ParentsOk fs)
    (h : pRel fs a b) : b ∈ idsOf fs := by
  obtain ⟨f, hf, hfp⟩ := h
  obtain ⟨hmem, _⟩ := lookupFolder_eq_some hf
  obtain ⟨g, hg, hgid, _⟩ := hpo f hmem b hfp
  exact mem_idsOf.mpr ⟨g, hg, hgid⟩

theorem sub_mem_ids {fs : List FolderT} {r x : Nat} (hr : r ∈ idsOf fs)
    (h : Sub fs r x) : x ∈ idsOf fs := by
  rcases Relation.ReflTransGen.cases_head h with heq | ⟨c, hc, _⟩
  · exact heq ▸ hr
  · exact pRel_src_mem hc

/-- Owners are constant along a parent edge. -/
theorem pRel_owner_eq {fs : List FolderT} (hnd : (idsOf fs).Nodup)
    (hpo : ParentsOk fs) {a b : Nat} (h : pRel fs a b)
    {f g : FolderT} (hf : lookupFolder fs a = some f)
    (hg : lookupFolder fs b = some g) : g.ownerId = f.ownerId := by
  obtain ⟨f', hf', hfp⟩ := h
  rw [hf] at hf'
  cases hf'
  obtain ⟨hfmem, _⟩ := lookupFolder_eq_some hf
  obtain ⟨g', hg', hgid, hgo⟩ := hpo f hfmem b hfp
  obtain ⟨hgmem, hgid'⟩ := lookupFolder_eq_some hg
  have : g' = g := id_inj hnd hg' hgmem (by rw [hgid, hgid'])
  subst this
  exact hgo

/-- Owners are constant along a parent chain. -/
theorem sub_owner_eq {fs : List FolderT} (hnd : (idsOf fs).Nodup)
    (hpo : ParentsOk fs) {r x : Nat} (h : Sub fs r x)
    {f g : FolderT} (hf : lookupFolder fs x = some f)
    (hg : lookupFolder fs r = some g) : f.ownerId = g.ownerId := by
  induction h using Relation.ReflTransGen.head_induction_on generalizing f with
  | refl =>
    rw [hf] at hg
    cases hg
    rfl
  | head hstep htail ih =>
    rename_i a c
    obtain ⟨f', hf', hfp⟩ := hstep
    rw [hf] at hf'
    cases hf'
    obtain ⟨hfmem, _⟩ := lookupFolder_eq_some hf
    obtain ⟨g', hg', hgid, hgo⟩ := hpo f hfmem c hfp
    have hlook : lookupFolder fs c = some g' := by
      have := lookupFolder_of_mem hnd hg'
      rwa [hgid] at this
    rw [← hgo]
    exact ih hlook

/-! ### The ascent walks: soundness and fuel adequacy -/

theorem sharedChainWalk_eq_ccr (fs : List FolderT) :
    ∀ (fuel : Nat) (cur : Option Nat) (t : Nat),
      sharedChainWalk fs fuel cur t = checkCircularReference fs fuel cur t := by
  intro fuel
  induction fuel with
  | zero => intro cur t; cases cur <;> rfl
  | succ n ih =>
    intro cur t
    cases cur with
    | none => rfl
    | some c =>
      simp only [sharedChainWalk, checkCircularReference]
      cases lookupFolder fs c with
      | none => rfl
      | some f =>
        by_cases h : f.id = t
        · simp [h]
        · simp [h, ih]

theorem ccr_none (fs : List FolderT) (fuel t : Nat) :
    checkCircularReference fs fuel none t = false := by
  cases fuel <;> rfl

/-- Soundness of the ascent walk: a `true` answer exhibits a parent chain
from the start to the target. -/
theorem ccr_sound {fs : List FolderT} :
    ∀ {fuel : Nat} {c t : Nat},
      checkCircularReference fs fuel (some c) t = true →
      Relation.ReflTransGen (pRel fs) c t := by
  intro fuel
  induction fuel with
  | zero => intro c t h; simp [checkCircularReference] at h
  | succ n ih =>
    intro c t h
    cases hl : lookupFolder fs c with
    | none => simp [checkCircularReference, hl] at h
    | some f =>
      simp only [checkCircularReference, hl] at h
      have hid : f.id = c := (lookupFolder_eq_some hl).2
      by_cases ht : f.id = t
      · have hct : c = t := by rw [← hid, ht]
        exact hct ▸ Relation.ReflTransGen.refl
      · rw [if_neg ht] at h
        cases hp : f.parentId with
        | none => rw [hp, ccr_none] at h; cases h
        | some p =>
          rw [hp] at h
          exact Relation.ReflTransGen.head ⟨f, hl, hp⟩ (ih h)

/-- Completeness of the ascent walk, by a visited-set argument: with enough
fuel relative to the folders not yet visited, a chain from `c` to `t` is
always found. -/
theorem ccr_complete_aux {fs : List FolderT}
    (hnd : (idsOf fs).Nodup) (hpo : ParentsOk fs) (hac : AcyclicP fs) :
    ∀ (fuel : Nat) (c t : Nat) (seen : List Nat),
      Relation.ReflTransGen (pRel fs) c t → c ∈ idsOf fs →
      (∀ y ∈ seen, y ∈ idsOf fs) → (∀ y ∈ seen, Relation.TransGen (pRel fs) y c) →
      seen.Nodup → fs.length < fuel + seen.length →
      checkCircularReference fs fuel (some c) t = true := by
  intro fuel
  induction fuel with
  | zero =>
    intro c t seen _ _ hseen _ hsnd hlen
    exfalso
    have hsub : seen ⊆ idsOf fs := hseen
    have := (hsnd.subperm hsub).length_le
    have hlids : (idsOf fs).length = fs.length := by simp [idsOf]
    omega
  | succ n ih =>
    intro c t seen hchain hc hseen hanc hsnd hlen
    obtain ⟨f, hl, hfmem, hfid⟩ := lookupFolder_isSome_of_mem_ids hnd hc
    simp only [checkCircularReference, hl]
    by_cases ht : f.id = t
    · simp [ht]
    · rw [if_neg ht]
      rcases Relation.ReflTransGen.cases_head hchain with heq | ⟨d, hd, hdt⟩
      · exact absurd (hfid.trans heq) ht
      · obtain ⟨f', hl', hp'⟩ := hd
        rw [hl] at hl'
        cases hl'
        rw [hp']
        refine ih d t (c :: seen) hdt (pRel_tgt_mem hpo ⟨f, hl, hp'⟩) ?_ ?_ ?_ ?_
        · intro y hy
          rcases List.mem_cons.mp hy with rfl | hy
          · exact hc
          · exact hseen y hy
        · intro y hy
          rcases List.mem_cons.mp hy with rfl | hy
          · exact Relation.TransGen.single ⟨f, hl, hp'⟩
          · exact (hanc y hy).tail ⟨f, hl, hp'⟩
        · refine List.nodup_cons.mpr ⟨?_, hsnd⟩
          intro hcs
          exact hac c (hanc c hcs)
        · simp only [List.length_cons]
          omega

theorem ccr_complete {fs : List FolderT}
    (hnd : (idsOf fs).Nodup) (hpo : ParentsOk fs) (hac : AcyclicP fs)
    {c t : Nat} (hchain : Relation.ReflTransGen (pRel fs) c t)
    (hc : c ∈ idsOf fs) {fuel : Nat} (hfuel : fs.length < fuel) :
    checkCircularReference fs fuel (some c) t = true := by
  refine ccr_complete_aux hnd hpo hac fuel c t [] hchain hc ?_ ?_ ?_ ?_
  · intro y hy; cases hy
  · intro y hy; cases hy
  · exact List.nodup_nil
  · simpa using hfuel

/-! ### `reachesNull`: cycles never reach null, acyclic chains always do -/

theorem reachesNull_false_of_cycle {fs : List FolderT} :
    ∀ (fuel : Nat) {x : Nat}, Relation.TransGen (pRel fs) x x →
      reachesNull fs fuel x = false := by
  intro fuel
  induction fuel with
  | zero => intro x _; rfl
  | succ n ih =>
    intro x hcyc
    obtain ⟨p, hxp, hpx⟩ := Relation.TransGen.head'_iff.mp hcyc
    obtain ⟨f, hl, hp⟩ := hxp
    simp only [reachesNull, hl, hp]
    exact ih (Relation.TransGen.tail' hpx ⟨f, hl, hp⟩)

theorem reachesNull_true_aux {fs : List FolderT}
    (hnd : (idsOf fs).Nodup) (hpo : ParentsOk fs) (hac : AcyclicP fs) :
    ∀ (fuel : Nat) (x : Nat) (seen : List Nat), x ∈ idsOf fs →
      (∀ y ∈ seen, y ∈ idsOf fs) → (∀ y ∈ seen, Relation.TransGen (pRel fs) y x) →
      seen.Nodup → fs.length < fuel + seen.length →
      reachesNull fs fuel x = true := by
  intro fuel
  induction fuel with
  | zero =>
    intro x seen _ hseen _ hsnd hlen
    exfalso
    have := (hsnd.subperm hseen).length_le
    have hlids : (idsOf fs).length = fs.length := by simp [idsOf]
    omega
  | succ n ih =>
    intro x seen hx hseen hanc hsnd hlen
    obtain ⟨f, hl, hfmem, hfid⟩ := lookupFolder_isSome_of_mem_ids hnd hx
    simp only [reachesNull, hl]
    cases hp : f.parentId with
    | none => rfl
    | some p =>
      refine ih p (x :: seen) (pRel_tgt_mem hpo ⟨f, hl, hp⟩) ?_ ?_ ?_ ?_
      · intro y hy
        rcases List.mem_cons.mp hy with rfl | hy
        · exact hx
        · exact hseen y hy
      · intro y hy
        rcases List.mem_cons.mp hy with rfl | hy
        · exact Relation.TransGen.single ⟨f, hl, hp⟩
        · exact (hanc y hy).tail ⟨f, hl, hp⟩
      · refine List.nodup_cons.mpr ⟨?_, hsnd⟩
        intro hcs
        exact hac x (hanc x hcs)
      · simp only [List.length_cons]
        omega

theorem reachesNull_true {fs : List FolderT}
    (hnd : (idsOf fs).Nodup) (hpo : ParentsOk fs) (hac : AcyclicP fs)
    {x : Nat} (hx : x ∈ idsOf fs) {fuel : Nat} (hfuel : fs.length < fuel) :
    reachesNull fs fuel x = true := by
  refine reachesNull_true_aux hnd hpo hac fuel x [] hx ?_ ?_ ?_ ?_
  · intro y hy; cases hy
  · intro y hy; cases hy
  · exact List.nodup_nil
  · simpa using hfuel

theorem acyclic_of_chains {fs : List FolderT}
    (h : ∀ f ∈ fs, reachesNull fs (fs.length + 1) f.id = true) : AcyclicP fs := by
  intro x hcyc
  obtain ⟨p, hxp, _⟩ := Relation.TransGen.head'_iff.mp hcyc
  obtain ⟨f, hl, _⟩ := hxp
  obtain ⟨hfmem, hfid⟩ := lookupFolder_eq_some hl
  have htrue := h f hfmem
  have hcyc' : Relation.TransGen (pRel fs) f.id f.id := by rw [hfid]; exact hcyc
  have hfalse := reachesNull_false_of_cycle (fs.length + 1) hcyc'
  rw [htrue] at hfalse
  cases hfalse

/-! ### The executable invariant versus its proof-level components -/

theorem inv_elim {σ : StoreState} (h : Inv σ = true) :
    (idsOf σ.folders).Nodup ∧ ParentsOk σ.folders ∧ AcyclicP σ.folders ∧
      FilesOk σ.folders σ.files := by
  unfold Inv at h
  simp only [Bool.and_eq_true, decide_eq_true_eq, List.all_eq_true] at h
  obtain ⟨⟨⟨hnd, hpar⟩, hch⟩, hfil⟩ := h
  refine ⟨hnd, ?_, ?_, ?_⟩
  · intro f hf p hp
    have := hpar f hf
    rw [hp] at this
    simp only [List.any_eq_true, Bool.and_eq_true, beq_iff_eq] at this
    obtain ⟨g, hg, hgid, hgo⟩ := this
    exact ⟨g, hg, hgid, hgo⟩
  · exact acyclic_of_chains fun f hf => hch f hf
  · intro hfile hh c hc
    have := hfil hfile hh
    rw [hc] at this
    simp only [List.any_eq_true, Bool.and_eq_true, beq_iff_eq] at this
    obtain ⟨g, hg, hgid, hgo⟩ := this
    exact ⟨g, hg, hgid, hgo⟩

theorem inv_intro {σ : StoreState} (hnd : (idsOf σ.folders).Nodup)
    (hpo : ParentsOk σ.folders) (hac : AcyclicP σ.folders)
    (hfo : FilesOk σ.folders σ.files) : Inv σ = true := by
  unfold Inv
  simp only [Bool.and_eq_true, decide_eq_true_eq, List.all_eq_true]
  refine ⟨⟨⟨hnd, ?_⟩, ?_⟩, ?_⟩
  · intro f hf
    cases hp : f.parentId with
    | none => rfl
    | some p =>
      obtain ⟨g, hg, hgid, hgo⟩ := hpo f hf p hp
      simp only [List.any_eq_true, Bool.and_eq_true, beq_iff_eq]
      exact ⟨g, hg, hgid, hgo⟩
  · intro f hf
    exact reachesNull_true hnd hpo hac
      (mem_idsOf.mpr ⟨f, hf, rfl⟩) (Nat.lt_succ_self _)
  · intro hfile hh
    cases hc : hfile.folderId with
    | none => rfl
    | some c =>
      obtain ⟨g, hg, hgid, hgo⟩ := hfo hfile hh c hc
      simp only [List.any_eq_true, Bool.and_eq_true, beq_iff_eq]
      exact ⟨g, hg, hgid, hgo⟩

/-! ### Inversion of the successful operations -/

theorem createFolder_ok {σ σ' : StoreState} {o i : Nat} {n : String}
    {p : Option Nat} (h : createFolder σ o n p i = .ok σ') :
    (jsTrim n).length ≠ 0 ∧ (jsTrim n).length ≤ 255 ∧
    (∀ q, p = some q → ∃ pf, lookupFolder σ.folders q = some pf ∧ pf.ownerId = o) ∧
    siblingNameTaken σ.folders o (jsTrim n) p = false ∧
    σ' = ⟨σ.folders ++ [⟨i, jsTrim n, o, p⟩], σ.files⟩ := by
  unfold createFolder at h
  by_cases h0 : (jsTrim n).length = 0
  · rw [if_pos h0] at h; cases h
  rw [if_neg h0] at h
  by_cases h255 : 255 < (jsTrim n).length
  · rw [if_pos h255] at h; cases h
  rw [if_neg h255] at h
  cases p with
  | none =>
    dsimp only at h
    by_cases hdup : siblingNameTaken σ.folders o (jsTrim n) none
    · rw [if_pos hdup] at h; cases h
    · rw [if_neg hdup] at h
      cases h
      refine ⟨h0, by omega, ?_, by simpa using hdup, rfl⟩
      intro q hq; cases hq
  | some q =>
    dsimp only at h
    cases hl : lookupFolder σ.folders q with
    | none => rw [hl] at h; cases h
    | some pf =>
      rw [hl] at h
      dsimp only at h
      by_cases howner : pf.ownerId = o
      · rw [if_pos howner] at h
        by_cases hdup : siblingNameTaken σ.folders o (jsTrim n) (some q)
        · rw [if_pos hdup] at h; cases h
        · rw [if_neg hdup] at h
          cases h
          refine ⟨h0, by omega, ?_, by simpa using hdup, rfl⟩
          intro q' hq'
          cases hq'
          exact ⟨pf, hl, howner⟩
      · rw [if_neg howner] at h; cases h

theorem updateFolder_ok {σ σ' : StoreState} {u fid : Nat} {nm : String}
    {pin : Option Nat} (h : updateFolder σ u fid nm pin = .ok σ') :
    ∃ folder, lookupFolder σ.folders fid = some folder ∧ folder.ownerId = u ∧
      (jsTrim nm).length ≠ 0 ∧ (jsTrim nm).length ≤ 255 ∧
      σ' = applyUpdate σ fid (jsTrim nm) pin ∧
      (pin = none ∨ ∃ np pf, pin = some np ∧ np ≠ fid ∧
        lookupFolder σ.folders np = some pf ∧ pf.ownerId = u ∧
        checkCircularReference σ.folders (σ.folders.length + 1)
          (some np) fid = false) := by
  unfold updateFolder at h
  cases hl : lookupFolder σ.folders fid with
  | none => rw [hl] at h; cases h
  | some folder =>
    rw [hl] at h
    dsimp only at h
    by_cases howner : folder.ownerId ≠ u
    · rw [if_pos howner] at h; cases h
    rw [if_neg howner] at h
    push_neg at howner
    by_cases h0 : (jsTrim nm).length = 0
    · rw [if_pos h0] at h; cases h
    rw [if_neg h0] at h
    by_cases h255 : 255 < (jsTrim nm).length
    · rw [if_pos h255] at h; cases h
    rw [if_neg h255] at h
    cases pin with
    | none =>
      dsimp only at h
      by_cases hdup : siblingNameTakenExcept σ.folders u (jsTrim nm) none fid
      · rw [if_pos hdup] at h; cases h
      · rw [if_neg hdup] at h
        cases h
        exact ⟨folder, rfl, howner, h0, by omega, rfl, Or.inl rfl⟩
    | some np =>
      dsimp only at h
      by_cases hself : np = fid
      · rw [if_pos hself] at h; cases h
      rw [if_neg hself] at h
      cases hlp : lookupFolder σ.folders np with
      | none => rw [hlp] at h; cases h
      | some pf =>
        rw [hlp] at h
        dsimp only at h
        by_cases hpo : pf.ownerId ≠ u
        · rw [if_pos hpo] at h; cases h
        rw [if_neg hpo] at h
        push_neg at hpo
        by_cases hcirc : checkCircularReference σ.folders (σ.folders.length + 1)
            (some np) fid
        · rw [if_pos hcirc] at h; cases h
        rw [if_neg hcirc] at h
        by_cases hdup : siblingNameTakenExcept σ.folders u (jsTrim nm) (some np) fid
        · rw [if_pos hdup] at h; cases h
        · rw [if_neg hdup] at h
          cases h
          exact ⟨folder, rfl, howner, h0, by omega, rfl,
            Or.inr ⟨np, pf, rfl, hself, hlp, hpo, by simpa using hcirc⟩⟩

theorem deleteFolder_ok {σ σ' : StoreState} {u fid : Nat} {force : Bool}
    {tr : List Nat} (h : deleteFolder σ u fid force = .ok (σ', tr)) :
    ∃ folder, lookupFolder σ.folders fid = some folder ∧ folder.ownerId = u ∧
      ((force = true ∧
          (σ', tr) = deleteFolderRecursively (σ.folders.length + 1) σ fid u) ∨
       (force = false ∧
          σ.folders.countP (fun f => f.parentId == some fid && f.ownerId == u) = 0 ∧
          σ.files.countP (fun g => g.folderId == some fid && g.ownerId == u) = 0 ∧
          σ' = removeFolderCascade σ fid ∧ tr = [fid])) := by
  unfold deleteFolder at h
  cases hl : lookupFolder σ.folders fid with
  | none => rw [hl] at h; cases h
  | some folder =>
    rw [hl] at h
    dsimp only at h
    by_cases howner : folder.ownerId ≠ u
    · rw [if_pos howner] at h; cases h
    rw [if_neg howner] at h
    push_neg at howner
    refine ⟨folder, rfl, howner, ?_⟩
    cases force with
    | true =>
      rw [if_neg (by simp), if_pos rfl] at h
      injection h with h
      exact Or.inl ⟨rfl, h.symm⟩
    | false =>
      by_cases hne : 0 < σ.folders.countP
            (fun f => f.parentId == some fid && f.ownerId == u) ∨
          0 < σ.files.countP (fun g => g.folderId == some fid && g.ownerId == u)
      · rw [if_pos ⟨hne, rfl⟩] at h; cases h
      · rw [if_neg (by simpa using hne), if_neg (by simp)] at h
        injection h with h
        push_neg at hne
        exact Or.inr ⟨rfl, by omega, by omega,
          (congrArg Prod.fst h).symm, (congrArg Prod.snd h).symm⟩

/-- Decidable equality on route results, so that concrete runs can be
checked by `decide`. -/
instance instDecEqExcept {ε α : Type} [DecidableEq ε] [DecidableEq α] :
    DecidableEq (Except ε α) := fun a b =>
  match a, b with
  | .ok x, .ok y =>
    if h : x = y then isTrue (by rw [h])
    else isFalse (by intro hx; injection hx; contradiction)
  | .error x, .error y =>
    if h : x = y then isTrue (by rw [h])
    else isFalse (by intro hx; injection hx; contradiction)
  | .ok _, .error _ => isFalse (by intro hx; cases hx)
  | .error _, .ok _ => isFalse (by intro hx; cases hx)

/-! ### Claim C2 — share-link expiry boundary -/

/-- C2 (counterexample): the claim says a request at `now = expiresAt` fails
`Expired`; but `share.js` tests `shareLink.expiresAt < now`, so at the
boundary instant the resolution *succeeds*. -/
theorem C2_boundary_counterexample :
    resolveShare [⟨1, "tok", 1, 1000, 0⟩] 1000 "tok" =
      .ok ⟨1, "tok", 1, 1000, 0⟩ ∧
    ¬ resolveShare [⟨1, "tok", 1, 1000, 0⟩] 1000 "tok" = .error .expired := by
  decide

/-- C2 (amended): for every stored link found by token, resolution succeeds
exactly when `now ≤ expiresAt` and fails `Expired` exactly when
`expiresAt < now` — the boundary instant `now = expiresAt` still resolves. -/
theorem C2_share_expiry {ls : List ShareLinkT} {now : Nat} {tok : String}
    {link : ShareLinkT} (hfind : findShareLink ls tok = some link) :
    (resolveShare ls now tok = .ok link ↔ now ≤ link.expiresAt) ∧
    (resolveShare ls now tok = .error .expired ↔ link.expiresAt < now) := by
  unfold resolveShare
  rw [hfind]
  dsimp only
  by_cases h : link.expiresAt < now
  · rw [if_pos h]
    constructor
    · constructor
      · intro hx; cases hx
      · intro hx; omega
    · simp [h]
  · rw [if_neg h]
    constructor
    · simp; omega
    · constructor
      · intro hx; cases hx
      · intro hx; omega

theorem C2_share_expiry_witness :
    (resolveShare [⟨1, "tok", 1, 1000, 0⟩] 500 "tok" =
        .ok ⟨1, "tok", 1, 1000, 0⟩ ↔ 500 ≤ 1000) ∧
    (resolveShare [⟨1, "tok", 1, 1000, 0⟩] 500 "tok" =
        .error .expired ↔ 1000 < 500) :=
  C2_share_expiry (by decide)

/-! ### Claim C9 — `expiresAt > createdAt` for issued share links -/

/-- C9 (counterexample): the duration string "0d" matches the accepted
grammar `{integer}{d|h}`, and the link it produces has
`expiresAt = createdAt`, violating the claimed strict `expiresAt >
createdAt`. -/
theorem C9_zero_duration_counterexample :
    parseDuration "0d" = some (0, 'd') ∧
    createShareLink ⟨[⟨1, "Docs", 1, none⟩], []⟩ 1 1 "0d" 5000 "tok" 1 =
      .ok ⟨1, "tok", 1, 5000, 5000⟩ ∧
    ¬ (5000 : Nat) < 5000 := by
  decide

/-- C9 (amended): every link the route persists satisfies
`createdAt ≤ expiresAt`, with equality exactly for the well-formed
zero-valued durations ("0d"/"0h"); every other duration — positive
well-formed values and malformed strings falling back to 7 days — gives the
claimed strict `expiresAt > createdAt`. -/
theorem C9_expiry_after_creation {σ : StoreState} {u fid now nid : Nat}
    {dur tok : String} {link : ShareLinkT}
    (h : createShareLink σ u fid dur now tok nid = .ok link) :
    link.createdAt ≤ link.expiresAt ∧
    (link.expiresAt = link.createdAt ↔ ∃ un, parseDuration dur = some (0, un)) := by
  unfold createShareLink at h
  cases hl : lookupFolder σ.folders fid with
  | none => rw [hl] at h; cases h
  | some folder =>
    rw [hl] at h
    dsimp only at h
    by_cases howner : folder.ownerId ≠ u
    · rw [if_pos howner] at h; cases h
    rw [if_neg howner] at h
    injection h with h
    subst h
    simp only
    unfold computeExpiry
    cases hp : parseDuration dur with
    | none =>
      constructor
      · simp [msPerDay]
      · constructor
        · intro hx; exfalso; simp [msPerDay] at hx
        · rintro ⟨un, hun⟩; cases hun
    | some vu =>
      obtain ⟨v, un⟩ := vu
      dsimp only
      by_cases hd : un = 'd'
      · subst hd
        rw [if_pos rfl]
        constructor
        · exact Nat.le_add_right _ _
        · constructor
          · intro hx
            have hv0 : v * msPerDay = 0 := by omega
            have hv : v = 0 := by simpa [msPerDay] using hv0
            exact ⟨'d', by rw [hv]⟩
          · rintro ⟨un', hun'⟩
            injection hun' with h1
            have hv : v = 0 := by
              have := congrArg Prod.fst h1
              simpa using this
            simp [hv]
      · rw [if_neg hd]
        constructor
        · exact Nat.le_add_right _ _
        · constructor
          · intro hx
            have hv0 : v * msPerHour = 0 := by omega
            have hv : v = 0 := by simpa [msPerHour] using hv0
            exact ⟨un, by rw [hv]⟩
          · rintro ⟨un', hun'⟩
            injection hun' with h1
            have hv : v = 0 := by
              have := congrArg Prod.fst h1
              simpa using this
            simp [hv]

theorem C9_expiry_after_creation_witness :
    (5000 : Nat) ≤ (5000 + 2 * msPerHour) ∧
    ((5000 + 2 * msPerHour : Nat) = 5000 ↔
      ∃ un, parseDuration "2h" = some (0, un)) := by
  have h := @C9_expiry_after_creation ⟨[⟨1, "Docs", 1, none⟩], []⟩ 1 1 5000 7
    "2h" "tok" ⟨7, "tok", 1, 5000 + 2 * msPerHour, 5000⟩ (by decide)
  exact h

/-! ### Claim C10 — rename with omitted parent resets parentId to null -/

/-- C10: `router.put('/:id')` initializes `newParentId = null` and writes it
whenever the request's `parentId` is omitted, `null` or empty — so a
rename-only update unconditionally re-roots the folder instead of keeping
its old parent.  (An `error` result performs no write; on success the write
is exactly `applyUpdate`.) -/
theorem C10_rename_resets_parent {σ σ' : StoreState} {u fid : Nat} {nm : String}
    (h : updateFolder σ u fid nm none = .ok σ') :
    σ' = applyUpdate σ fid (jsTrim nm) none ∧
    ∀ g ∈ σ'.folders, g.id = fid → g.parentId = none ∧ g.name = jsTrim nm := by
  obtain ⟨folder, hl, howner, h0, h255, heq, -⟩ := updateFolder_ok h
  refine ⟨heq, ?_⟩
  subst heq
  intro g hg hgid
  simp only [applyUpdate, List.mem_map] at hg
  obtain ⟨f, hf, hfe⟩ := hg
  by_cases hfid : f.id = fid
  · rw [if_pos hfid] at hfe
    subst hfe
    exact ⟨rfl, rfl⟩
  · rw [if_neg hfid] at hfe
    subst hfe
    exact absurd hgid hfid

theorem C10_rename_resets_parent_witness :
    (⟨[⟨1, "Docs", 1, none⟩, ⟨2, "Renamed", 1, none⟩], []⟩ : StoreState) =
      applyUpdate ⟨[⟨1, "Docs", 1, none⟩, ⟨2, "Sub", 1, some 1⟩], []⟩ 2
        (jsTrim "Renamed") none ∧
    ∀ g ∈ (⟨[⟨1, "Docs", 1, none⟩, ⟨2, "Renamed", 1, none⟩], []⟩
        : StoreState).folders,
      g.id = 2 → g.parentId = none ∧ g.name = jsTrim "Renamed" :=
  @C10_rename_resets_parent ⟨[⟨1, "Docs", 1, none⟩, ⟨2, "Sub", 1, some 1⟩], []⟩
    ⟨[⟨1, "Docs", 1, none⟩, ⟨2, "Renamed", 1, none⟩], []⟩ 1 2 "Renamed"
    (by decide)

/-! ### Claim C3 — public gateway only serves files under the shared folder -/

theorem inSharedFolderCheck_sound {fs : List FolderT} {fuel : Nat}
    {fo : Option Nat} {t : Nat} (h : inSharedFolderCheck fs fuel fo t = true) :
    ∃ c, fo = some c ∧ Sub fs t c := by
  unfold inSharedFolderCheck at h
  cases fo with
  | none => cases h
  | some c =>
    dsimp only at h
    by_cases hc : c = t
    · subst hc
      refine ⟨c, rfl, ?_⟩
      exact Relation.ReflTransGen.refl
    · rw [if_neg hc, sharedChainWalk_eq_ccr] at h
      exact ⟨c, rfl, ccr_sound h⟩

/-- C3: for a valid, unexpired token and an existing file, the gateway of
`share.js` serves the file only when the ascending parent chain from the
file's folder reaches the shared folder, and answers `accessDenied` whenever
no such chain exists — even though the token itself is valid. -/
theorem C3_gateway_scope {σ : StoreState} {ls : List ShareLinkT} {now fid : Nat}
    {tok : String} {sl : ShareLinkT} {file : FileT}
    (hfind : findShareLink ls tok = some sl)
    (hun : ¬ sl.expiresAt < now)
    (hfile : lookupFile σ.files fid = some file) :
    (getSharedFile σ ls now tok fid = .ok file →
       ∃ c, file.folderId = some c ∧ Sub σ.folders sl.folderId c) ∧
    ((¬ ∃ c, file.folderId = some c ∧ Sub σ.folders sl.folderId c) →
       getSharedFile σ ls now tok fid = .error .accessDenied) := by
  unfold getSharedFile
  rw [hfind]
  dsimp only
  rw [if_neg hun, hfile]
  dsimp only
  by_cases hchk : inSharedFolderCheck σ.folders (σ.folders.length + 1)
      file.folderId sl.folderId
  · rw [if_pos hchk]
    constructor
    · intro _
      exact inSharedFolderCheck_sound hchk
    · intro hno
      exact absurd (inSharedFolderCheck_sound hchk) hno
  · rw [if_neg hchk]
    constructor
    · intro hx
      cases hx
    · intro _
      rfl

theorem C3_gateway_scope_witness :
    (getSharedFile ⟨[⟨1, "Docs", 1, none⟩, ⟨2, "2024", 1, some 1⟩],
        [⟨10, "n", "text/plain", 3, "u", "p", some 2, 1⟩]⟩
        [⟨1, "tok", 1, 9000, 0⟩] 100 "tok" 10 =
        .ok ⟨10, "n", "text/plain", 3, "u", "p", some 2, 1⟩ →
      ∃ c, (⟨10, "n", "text/plain", 3, "u", "p", some 2, 1⟩ : FileT).folderId =
          some c ∧
        Sub [⟨1, "Docs", 1, none⟩, ⟨2, "2024", 1, some 1⟩] 1 c) ∧
    ((¬ ∃ c, (⟨10, "n", "text/plain", 3, "u", "p", some 2, 1⟩
          : FileT).folderId = some c ∧
        Sub [⟨1, "Docs", 1, none⟩, ⟨2, "2024", 1, some 1⟩] 1 c) →
      getSharedFile ⟨[⟨1, "Docs", 1, none⟩, ⟨2, "2024", 1, some 1⟩],
        [⟨10, "n", "text/plain", 3, "u", "p", some 2, 1⟩]⟩
        [⟨1, "tok", 1, 9000, 0⟩] 100 "tok" 10 = .error .accessDenied) :=
  @C3_gateway_scope
    ⟨[⟨1, "Docs", 1, none⟩, ⟨2, "2024", 1, some 1⟩],
      [⟨10, "n", "text/plain", 3, "u", "p", some 2, 1⟩]⟩
    [⟨1, "tok", 1, 9000, 0⟩] 100 10 "tok" ⟨1, "tok", 1, 9000, 0⟩
    ⟨10, "n", "text/plain", 3, "u", "p", some 2, 1⟩
    (by decide) (by decide) (by decide)

/-! ### Claim C6 — non-recursive delete and the NotEmpty counts -/

theorem lookup_removeCascade_self (σ : StoreState) (fid : Nat) :
    lookupFolder (removeFolderCascade σ fid).folders fid = none := by
  unfold removeFolderCascade lookupFolder
  rw [List.find?_eq_none]
  intro x hx
  have hpred := (List.mem_filter.mp hx).2
  simp only [Bool.not_eq_eq_eq_not, Bool.not_true, beq_eq_false_iff_ne] at hpred
  simp [hpred]

/-- C6: for an owned, existing folder, `router.delete('/:id')` without
`force` fails `notEmpty` carrying exactly the direct child-folder and
direct-file counts iff at least one of them is nonzero (the error path
performs no write), and succeeds — removing exactly that folder row, whose
lookup afterwards is `none` — iff both counts are zero. -/
theorem C6_delete_nonrecursive {σ : StoreState} {u fid : Nat} {folder : FolderT}
    (hl : lookupFolder σ.folders fid = some folder) (ho : folder.ownerId = u) :
    (∀ c k, deleteFolder σ u fid false = .error (.notEmpty c k) ↔
       (c = σ.folders.countP (fun f => f.parentId == some fid && f.ownerId == u) ∧
        k = σ.files.countP (fun g => g.folderId == some fid && g.ownerId == u) ∧
        (0 < c ∨ 0 < k))) ∧
    (deleteFolder σ u fid false = .ok (removeFolderCascade σ fid, [fid]) ↔
       (σ.folders.countP (fun f => f.parentId == some fid && f.ownerId == u) = 0 ∧
        σ.files.countP (fun g => g.folderId == some fid && g.ownerId == u) = 0)) ∧
    lookupFolder (removeFolderCascade σ fid).folders fid = none := by
  unfold deleteFolder
  rw [hl]
  dsimp only
  rw [if_neg (by simp [ho])]
  by_cases hne : 0 < σ.folders.countP
        (fun f => f.parentId == some fid && f.ownerId == u) ∨
      0 < σ.files.countP (fun g => g.folderId == some fid && g.ownerId == u)
  · rw [if_pos ⟨hne, rfl⟩]
    refine ⟨?_, ?_, lookup_removeCascade_self σ fid⟩
    · intro c k
      constructor
      · intro hx
        injection hx with hx
        injection hx with h1 h2
        exact ⟨h1.symm, h2.symm, by omega⟩
      · rintro ⟨rfl, rfl, -⟩
        rfl
    · constructor
      · intro hx; cases hx
      · rintro ⟨h1, h2⟩
        exfalso
        omega
  · rw [if_neg (fun hx => hne hx.1), if_neg (by simp)]
    push_neg at hne
    refine ⟨?_, ?_, lookup_removeCascade_self σ fid⟩
    · intro c k
      constructor
      · intro hx; cases hx
      · rintro ⟨rfl, rfl, hck⟩
        exfalso
        omega
    · constructor
      · intro _
        omega
      · intro _
        rfl

theorem C6_delete_nonrecursive_witness :
    ((∀ c k, deleteFolder ⟨[⟨1, "Docs", 1, none⟩, ⟨2, "Sub", 1, some 1⟩],
        [⟨10, "n", "text/plain", 3, "u", "p", some 1, 1⟩]⟩ 1 1 false =
          .error (.notEmpty c k) ↔
       (c = [(⟨1, "Docs", 1, none⟩ : FolderT), ⟨2, "Sub", 1, some 1⟩].countP
              (fun f => f.parentId == some 1 && f.ownerId == 1) ∧
        k = [(⟨10, "n", "text/plain", 3, "u", "p", some 1, 1⟩ : FileT)].countP
              (fun g => g.folderId == some 1 && g.ownerId == 1) ∧
        (0 < c ∨ 0 < k)))) ∧
    ((deleteFolder ⟨[⟨1, "Docs", 1, none⟩, ⟨2, "Sub", 1, some 1⟩],
        [⟨10, "n", "text/plain", 3, "u", "p", some 1, 1⟩]⟩ 1 1 false =
        .ok (removeFolderCascade ⟨[⟨1, "Docs", 1, none⟩, ⟨2, "Sub", 1, some 1⟩],
          [⟨10, "n", "text/plain", 3, "u", "p", some 1, 1⟩]⟩ 1, [1]) ↔
       ([(⟨1, "Docs", 1, none⟩ : FolderT), ⟨2, "Sub", 1, some 1⟩].countP
          (fun f => f.parentId == some 1 && f.ownerId == 1) = 0 ∧
        [(⟨10, "n", "text/plain", 3, "u", "p", some 1, 1⟩ : FileT)].countP
          (fun g => g.folderId == some 1 && g.ownerId == 1) = 0))) ∧
    lookupFolder (removeFolderCascade ⟨[⟨1, "Docs", 1, none⟩,
      ⟨2, "Sub", 1, some 1⟩],
      [⟨10, "n", "text/plain", 3, "u", "p", some 1, 1⟩]⟩ 1).folders 1 = none :=
  @C6_delete_nonrecursive
    ⟨[⟨1, "Docs", 1, none⟩, ⟨2, "Sub", 1, some 1⟩],
      [⟨10, "n", "text/plain", 3, "u", "p", some 1, 1⟩]⟩
    1 1 ⟨1, "Docs", 1, none⟩ (by decide) (by decide)

/-! ### Claim C7 — sibling-name uniqueness at create -/

theorem siblingNameTaken_append_single {fs : List FolderT} {o : Nat}
    {nm : String} {pid : Option Nat} {f : FolderT} :
    siblingNameTaken (fs ++ [f]) o nm pid =
      (siblingNameTaken fs o nm pid ||
        (f.name == nm && f.ownerId == o && f.parentId == pid)) := by
  simp [siblingNameTaken, List.any_append]

theorem lookupFolder_append_left {fs gs : List FolderT} {q : Nat} {pf : FolderT}
    (h : lookupFolder fs q = some pf) : lookupFolder (fs ++ gs) q = some pf := by
  unfold lookupFolder at h ⊢
  rw [List.find?_append, h]
  rfl

/-- C7 (counterexample): the claim promises that a second create differing
in `name` succeeds; but the route compares *trimmed* names, so "a " (which
differs from "a" as a string) still collides and fails `duplicateName`. -/
theorem C7_trailing_space_counterexample :
    createFolder ⟨[], []⟩ 1 "a" none 1 = .ok ⟨[⟨1, "a", 1, none⟩], []⟩ ∧
    ("a " : String) ≠ "a" ∧
    createFolder ⟨[⟨1, "a", 1, none⟩], []⟩ 1 "a " none 2 =
      .error .duplicateName := by
  decide

/-- C7 (amended): after a successful create, a second create whose name
trims to the same string in the same (owner, parent) scope fails
`duplicateName` (and, returning before `prisma.folder.create`, writes
nothing); a second create whose *trimmed* name or parent scope differs
succeeds, provided the new name is valid, the target parent (when given)
exists and is owned by the caller, and no pre-existing sibling holds that
trimmed name in the target scope. -/
theorem C7_create_uniqueness {σ σ' : StoreState} {o i : Nat} {n : String}
    {p : Option Nat} (h1 : createFolder σ o n p i = .ok σ') :
    (∀ j n₂, jsTrim n₂ = jsTrim n →
      createFolder σ' o n₂ p j = .error .duplicateName) ∧
    (∀ j n' p', (jsTrim n').length ≠ 0 → (jsTrim n').length ≤ 255 →
      (∀ q, p' = some q →
        ∃ pf, lookupFolder σ.folders q = some pf ∧ pf.ownerId = o) →
      siblingNameTaken σ.folders o (jsTrim n') p' = false →
      (jsTrim n' ≠ jsTrim n ∨ p' ≠ p) →
      ∃ σ'', createFolder σ' o n' p' j = .ok σ'') := by
  obtain ⟨hn0, hn255, hpar, hdup, hσ'⟩ := createFolder_ok h1
  subst hσ'
  constructor
  · intro j n₂ htrim
    have htaken : siblingNameTaken (σ.folders ++ [⟨i, jsTrim n, o, p⟩]) o
        (jsTrim n) p = true := by
      rw [siblingNameTaken_append_single]
      simp
    unfold createFolder
    rw [htrim, if_neg hn0, if_neg (by omega)]
    cases p with
    | none =>
      dsimp only
      rw [if_pos htaken]
    | some q =>
      dsimp only
      obtain ⟨pf, hpf, hpo⟩ := hpar q rfl
      rw [lookupFolder_append_left hpf]
      dsimp only
      rw [if_pos hpo, if_pos htaken]
  · intro j n' p' h0' h255' hpar' hfree hdiff
    have hfree' : siblingNameTaken (σ.folders ++ [⟨i, jsTrim n, o, p⟩]) o
        (jsTrim n') p' = false := by
      rw [siblingNameTaken_append_single, hfree]
      simp only [Bool.false_or]
      cases hdiff with
      | inl hd =>
        have hb : ((jsTrim n : String) == jsTrim n') = false :=
          beq_eq_false_iff_ne.mpr (Ne.symm hd)
        simp [hb]
      | inr hp =>
        have hb : (p == p') = false := beq_eq_false_iff_ne.mpr (Ne.symm hp)
        simp [hb]
    unfold createFolder
    rw [if_neg h0', if_neg (by omega)]
    cases p' with
    | none =>
      dsimp only
      rw [if_neg (by simp [hfree'])]
      exact ⟨_, rfl⟩
    | some q =>
      dsimp only
      obtain ⟨pf, hpf, hpo⟩ := hpar' q rfl
      rw [lookupFolder_append_left hpf]
      dsimp only
      rw [if_pos hpo, if_neg (by simp [hfree'])]
      exact ⟨_, rfl⟩

theorem C7_create_uniqueness_witness :
    ((∀ j n₂, jsTrim n₂ = jsTrim "Docs" →
      createFolder ⟨[⟨1, "Docs", 1, none⟩], []⟩ 1 n₂ none j =
        .error .duplicateName)) ∧
    (∀ j n' p', (jsTrim n').length ≠ 0 → (jsTrim n').length ≤ 255 →
      (∀ q, p' = some q →
        ∃ pf, lookupFolder ([] : List FolderT) q = some pf ∧ pf.ownerId = 1) →
      siblingNameTaken [] 1 (jsTrim n') p' = false →
      (jsTrim n' ≠ jsTrim "Docs" ∨ p' ≠ none) →
      ∃ σ'', createFolder ⟨[⟨1, "Docs", 1, none⟩], []⟩ 1 n' p' j = .ok σ'') :=
  @C7_create_uniqueness ⟨[], []⟩ ⟨[⟨1, "Docs", 1, none⟩], []⟩ 1 1 "Docs" none
    (by decide)

/-! ### Claim C8 — upload batches with failing database commits -/

/-- What the commit loop computes: the blobs of exactly the failing entries
are destroyed, exactly the non-failing entries are saved (in order, with
their database ids), and the store gains exactly the saved rows. -/
theorem uploadLoop_spec (o : Nat) (fid : Option Nat) (newId : Nat → Nat)
    (dbFails : Nat → Bool) :
    ∀ (es : List UploadEntry) (i : Nat) (σ : StoreState),
      (uploadLoop o fid newId dbFails es i σ).2.2 =
        ((es.enumFrom i).filter (fun pr => dbFails pr.1)).map
          (fun pr => pr.2.filename) ∧
      (uploadLoop o fid newId dbFails es i σ).2.1 =
        ((es.enumFrom i).filter (fun pr => !dbFails pr.1)).map
          (fun pr => (⟨newId pr.1, pr.2.originalname, pr.2.mimetype, pr.2.size,
            pr.2.path, pr.2.filename, fid, o⟩ : FileT)) ∧
      (uploadLoop o fid newId dbFails es i σ).1 =
        { σ with files := σ.files ++ (uploadLoop o fid newId dbFails es i σ).2.1 } := by
  intro es
  induction es with
  | nil =>
    intro i σ
    refine ⟨rfl, rfl, ?_⟩
    simp [uploadLoop]
  | cons e rest ih =>
    intro i σ
    by_cases hf : dbFails i
    · have h1 := ih (i + 1) σ
      have e1 : uploadLoop o fid newId dbFails (e :: rest) i σ =
          ((uploadLoop o fid newId dbFails rest (i + 1) σ).1,
            (uploadLoop o fid newId dbFails rest (i + 1) σ).2.1,
            e.filename :: (uploadLoop o fid newId dbFails rest (i + 1) σ).2.2) := by
        simp [uploadLoop, hf]
      rw [e1]
      refine ⟨?_, ?_, ?_⟩
      · simp [List.enumFrom, hf, h1.1]
      · simp [List.enumFrom, hf, h1.2.1]
      · exact h1.2.2
    · have h1 := ih (i + 1)
        { σ with files := σ.files ++
            [⟨newId i, e.originalname, e.mimetype, e.size, e.path, e.filename,
              fid, o⟩] }
      have e2 : uploadLoop o fid newId dbFails (e :: rest) i σ =
          ((uploadLoop o fid newId dbFails rest (i + 1)
              { σ with files := σ.files ++
                [⟨newId i, e.originalname, e.mimetype, e.size, e.path,
                  e.filename, fid, o⟩] }).1,
            (⟨newId i, e.originalname, e.mimetype, e.size, e.path, e.filename,
              fid, o⟩ : FileT) ::
              (uploadLoop o fid newId dbFails rest (i + 1)
                { σ with files := σ.files ++
                  [⟨newId i, e.originalname, e.mimetype, e.size, e.path,
                    e.filename, fid, o⟩] }).2.1,
            (uploadLoop o fid newId dbFails rest (i + 1)
              { σ with files := σ.files ++
                [⟨newId i, e.originalname, e.mimetype, e.size, e.path,
                  e.filename, fid, o⟩] }).2.2) := by
        simp [uploadLoop, hf]
      rw [e2]
      refine ⟨?_, ?_, ?_⟩
      · simp [List.enumFrom, hf, h1.1]
      · simp [List.enumFrom, hf, h1.2.1]
      · rw [h1.2.2]
        simp [List.append_assoc]

/-- C8 (counterexample): a two-file batch whose second commit fails produces
*the same response* as a one-file batch that never contained the second file
— the response records nothing about the failed file (it is only
console-logged), refuting "the failures are never silently dropped from the
response"; the failed blob, however, is destroyed. -/
theorem C8_silent_failure_counterexample :
    uploadFiles ⟨[], []⟩ 1 none
        [⟨"a.txt", "text/plain", 3, "urlA", "blobA"⟩,
         ⟨"b.txt", "text/plain", 4, "urlB", "blobB"⟩]
        (fun i => 100 + i) (fun i => i == 1) =
      .ok (⟨[], [⟨100, "a.txt", "text/plain", 3, "urlA", "blobA", none, 1⟩]⟩,
        ⟨"Successfully uploaded 1 file(s)",
          [⟨100, "a.txt", "text/plain", 3, "urlA", "blobA", none, 1⟩], 1, 3⟩,
        ["blobB"]) ∧
    uploadFiles ⟨[], []⟩ 1 none
        [⟨"a.txt", "text/plain", 3, "urlA", "blobA"⟩]
        (fun i => 100 + i) (fun _ => false) =
      .ok (⟨[], [⟨100, "a.txt", "text/plain", 3, "urlA", "blobA", none, 1⟩]⟩,
        ⟨"Successfully uploaded 1 file(s)",
          [⟨100, "a.txt", "text/plain", 3, "urlA", "blobA", none, 1⟩], 1, 3⟩,
        []) := by
  decide

/-- C8 (amended): when a batch succeeds overall while `dbFails` makes some
individual commits fail, the Cloudinary blob of every failed entry is
destroyed, and the response consists of exactly the saved subset with its
count and total size — its fields are computed from the saved rows alone, so
the identities of the failed files appear nowhere in it (they are only
logged); a batch in which every commit fails returns an error instead. -/
theorem C8_batch_cleanup {σ σ' : StoreState} {o : Nat} {fid : Option Nat}
    {es : List UploadEntry} {newId : Nat → Nat} {dbFails : Nat → Bool}
    {resp : UploadResult} {destroyed : List String}
    (h : uploadFiles σ o fid es newId dbFails = .ok (σ', resp, destroyed)) :
    destroyed = ((es.enumFrom 0).filter (fun pr => dbFails pr.1)).map
      (fun pr => pr.2.filename) ∧
    resp.files = ((es.enumFrom 0).filter (fun pr => !dbFails pr.1)).map
      (fun pr => (⟨newId pr.1, pr.2.originalname, pr.2.mimetype, pr.2.size,
        pr.2.path, pr.2.filename, fid, o⟩ : FileT)) ∧
    resp.files ≠ [] ∧
    resp = ⟨"Successfully uploaded " ++ toString resp.files.length ++ " file(s)",
      resp.files, resp.files.length, (resp.files.map (·.size)).sum⟩ := by
  have hspec := uploadLoop_spec o fid newId dbFails es 0 σ
  unfold uploadFiles at h
  have hcore : ∀ (hne : es ≠ []),
      (if (uploadLoop o fid newId dbFails es 0 σ).2.1 = [] then
          (.error (.serverError, (uploadLoop o fid newId dbFails es 0 σ).2.2) :
            Except (Err × List String) (StoreState × UploadResult × List String))
        else
          .ok ((uploadLoop o fid newId dbFails es 0 σ).1,
            ⟨"Successfully uploaded " ++
                toString (uploadLoop o fid newId dbFails es 0 σ).2.1.length ++
              " file(s)",
              (uploadLoop o fid newId dbFails es 0 σ).2.1,
              (uploadLoop o fid newId dbFails es 0 σ).2.1.length,
              (((uploadLoop o fid newId dbFails es 0 σ).2.1).map (·.size)).sum⟩,
            (uploadLoop o fid newId dbFails es 0 σ).2.2)) =
        .ok (σ', resp, destroyed) →
      destroyed = ((es.enumFrom 0).filter (fun pr => dbFails pr.1)).map
        (fun pr => pr.2.filename) ∧
      resp.files = ((es.enumFrom 0).filter (fun pr => !dbFails pr.1)).map
        (fun pr => (⟨newId pr.1, pr.2.originalname, pr.2.mimetype, pr.2.size,
          pr.2.path, pr.2.filename, fid, o⟩ : FileT)) ∧
      resp.files ≠ [] ∧
      resp = ⟨"Successfully uploaded " ++ toString resp.files.length ++
          " file(s)", resp.files, resp.files.length,
        (resp.files.map (·.size)).sum⟩ := by
    intro hne hx
    by_cases hem : (uploadLoop o fid newId dbFails es 0 σ).2.1 = []
    · rw [if_pos hem] at hx; cases hx
    · rw [if_neg hem] at hx
      injection hx with hx
      have h2 := congrArg Prod.snd hx
      have hresp : resp = ⟨"Successfully uploaded " ++
          toString (uploadLoop o fid newId dbFails es 0 σ).2.1.length ++
            " file(s)",
          (uploadLoop o fid newId dbFails es 0 σ).2.1,
          (uploadLoop o fid newId dbFails es 0 σ).2.1.length,
          (((uploadLoop o fid newId dbFails es 0 σ).2.1).map (·.size)).sum⟩ :=
        (congrArg Prod.fst h2).symm
      have hdest : destroyed = (uploadLoop o fid newId dbFails es 0 σ).2.2 :=
        (congrArg Prod.snd h2).symm
      have hfiles : resp.files = (uploadLoop o fid newId dbFails es 0 σ).2.1 := by
        rw [hresp]
      refine ⟨?_, ?_, ?_, ?_⟩
      · rw [hdest, hspec.1]
      · rw [hfiles, hspec.2.1]
      · rw [hfiles]; exact hem
      · rw [hresp]
  cases fid with
  | none =>
    dsimp only at h
    by_cases hne : es = []
    · rw [if_pos hne] at h; cases h
    · rw [if_neg hne] at h
      exact hcore hne h
  | some c =>
    dsimp only at h
    cases hl : lookupFolder σ.folders c with
    | none => rw [hl] at h; cases h
    | some folder =>
      rw [hl] at h
      dsimp only at h
      by_cases howner : folder.ownerId ≠ o
      · rw [if_pos howner] at h; cases h
      rw [if_neg howner] at h
      by_cases hne : es = []
      · rw [if_pos hne] at h; cases h
      · rw [if_neg hne] at h
        exact hcore hne h

theorem C8_batch_cleanup_witness :
    (["blobB"] : List String) =
      (([⟨"a.txt", "text/plain", 3, "urlA", "blobA"⟩,
         (⟨"b.txt", "text/plain", 4, "urlB", "blobB"⟩ : UploadEntry)].enumFrom
            0).filter (fun pr => pr.1 == 1)).map (fun pr => pr.2.filename) ∧
    ([⟨100, "a.txt", "text/plain", 3, "urlA", "blobA", none, 1⟩] : List FileT) =
      (([⟨"a.txt", "text/plain", 3, "urlA", "blobA"⟩,
         (⟨"b.txt", "text/plain", 4, "urlB", "blobB"⟩ : UploadEntry)].enumFrom
            0).filter (fun pr => !(pr.1 == 1))).map
        (fun pr => (⟨100 + pr.1, pr.2.originalname, pr.2.mimetype, pr.2.size,
          pr.2.path, pr.2.filename, none, 1⟩ : FileT)) ∧
    ([⟨100, "a.txt", "text/plain", 3, "urlA", "blobA", none, 1⟩] : List FileT) ≠
      [] ∧
    (⟨"Successfully uploaded 1 file(s)",
        [⟨100, "a.txt", "text/plain", 3, "urlA", "blobA", none, 1⟩], 1, 3⟩
        : UploadResult) =
      ⟨"Successfully uploaded " ++
          toString ([(⟨100, "a.txt", "text/plain", 3, "urlA", "blobA", none, 1⟩
            : FileT)].length) ++ " file(s)",
        [⟨100, "a.txt", "text/plain", 3, "urlA", "blobA", none, 1⟩],
        [(⟨100, "a.txt", "text/plain", 3, "urlA", "blobA", none, 1⟩
          : FileT)].length,
        ([(⟨100, "a.txt", "text/plain", 3, "urlA", "blobA", none, 1⟩
          : FileT)].map (·.size)).sum⟩ :=
  @C8_batch_cleanup ⟨[], []⟩
    ⟨[], [⟨100, "a.txt", "text/plain", 3, "urlA", "blobA", none, 1⟩]⟩ 1 none
    [⟨"a.txt", "text/plain", 3, "urlA", "blobA"⟩,
      ⟨"b.txt", "text/plain", 4, "urlB", "blobB"⟩]
    (fun i => 100 + i) (fun i => i == 1)
    ⟨"Successfully uploaded 1 file(s)",
      [⟨100, "a.txt", "text/plain", 3, "urlA", "blobA", none, 1⟩], 1, 3⟩
    ["blobB"] (by decide)

/-! ### Transfer lemmas between a store and a sub-store -/

theorem nodup_ids_of_sublist {fs₁ fs : List FolderT} (h : fs₁.Sublist fs)
    (hnd : (idsOf fs).Nodup) : (idsOf fs₁).Nodup := by
  simp only [idsOf] at hnd ⊢
  exact List.Nodup.sublist (List.Sublist.map (·.id) h) hnd

theorem lookup_of_sublist {fs₁ fs : List FolderT} (hs : fs₁.Sublist fs)
    (hnd : (idsOf fs).Nodup) {x : Nat} {f : FolderT}
    (h : lookupFolder fs₁ x = some f) : lookupFolder fs x = some f := by
  obtain ⟨hmem, hid⟩ := lookupFolder_eq_some h
  have := lookupFolder_of_mem hnd (hs.subset hmem)
  rwa [hid] at this

theorem pRel_of_sublist {fs₁ fs : List FolderT} (hs : fs₁.Sublist fs)
    (hnd : (idsOf fs).Nodup) {a b : Nat} (h : pRel fs₁ a b) : pRel fs a b := by
  obtain ⟨f, hf, hp⟩ := h
  exact ⟨f, lookup_of_sublist hs hnd hf, hp⟩

theorem sub_of_sublist {fs₁ fs : List FolderT} (hs : fs₁.Sublist fs)
    (hnd : (idsOf fs).Nodup) {r x : Nat} (h : Sub fs₁ r x) : Sub fs r x :=
  Relation.ReflTransGen.mono (fun _ _ => pRel_of_sublist hs hnd) h

theorem acyclic_of_sublist {fs₁ fs : List FolderT} (hs : fs₁.Sublist fs)
    (hnd : (idsOf fs).Nodup) (hac : AcyclicP fs) : AcyclicP fs₁ := by
  intro x hcyc
  exact hac x (Relation.TransGen.mono (fun _ _ => pRel_of_sublist hs hnd) hcyc)

theorem pRel_of_mem_parent {fs : List FolderT} (hnd : (idsOf fs).Nodup)
    {f : FolderT} (hf : f ∈ fs) {p : Nat} (hp : f.parentId = some p) :
    pRel fs f.id p :=
  ⟨f, lookupFolder_of_mem hnd hf, hp⟩

/-- A chain that stays clear of the deleted region `D` survives into the
sub-store. -/
theorem chain_survives {fs fs₁ : List FolderT} (hnd : (idsOf fs).Nodup)
    (hs : fs₁.Sublist fs) {D : Nat → Prop}
    (hsurv : ∀ g ∈ fs, ¬ D g.id → g ∈ fs₁)
    {t : Nat} (hprot : ∀ z, Relation.ReflTransGen (pRel fs) z t → ¬ D z) :
    ∀ x, Relation.ReflTransGen (pRel fs) x t →
      Relation.ReflTransGen (pRel fs₁) x t := by
  intro x h
  induction h using Relation.ReflTransGen.head_induction_on with
  | refl => exact .refl
  | head hedge htail ih =>
    rename_i a c
    obtain ⟨f, hf, hp⟩ := hedge
    obtain ⟨hfmem, hfid⟩ := lookupFolder_eq_some hf
    have hDa : ¬ D a := hprot a (Relation.ReflTransGen.head ⟨f, hf, hp⟩ htail)
    have hf₁ : f ∈ fs₁ := hsurv f hfmem (by rw [hfid]; exact hDa)
    have hl₁ : lookupFolder fs₁ a = some f := by
      have := lookupFolder_of_mem (nodup_ids_of_sublist hs hnd) hf₁
      rwa [hfid] at this
    exact Relation.ReflTransGen.head ⟨f, hl₁, hp⟩ ih

theorem transGen_survives {fs fs₁ : List FolderT} (hnd : (idsOf fs).Nodup)
    (hs : fs₁.Sublist fs) {D : Nat → Prop}
    (hsurv : ∀ g ∈ fs, ¬ D g.id → g ∈ fs₁)
    {t : Nat} (hprot : ∀ z, Relation.ReflTransGen (pRel fs) z t → ¬ D z) :
    ∀ y, Relation.TransGen (pRel fs) y t →
      Relation.TransGen (pRel fs₁) y t := by
  intro y h
  obtain ⟨m, hym, hmt⟩ := Relation.TransGen.head'_iff.mp h
  obtain ⟨f, hf, hp⟩ := hym
  obtain ⟨hfmem, hfid⟩ := lookupFolder_eq_some hf
  have hDy : ¬ D y := hprot y h.to_reflTransGen
  have hf₁ : f ∈ fs₁ := hsurv f hfmem (by rw [hfid]; exact hDy)
  have hl₁ : lookupFolder fs₁ y = some f := by
    have := lookupFolder_of_mem (nodup_ids_of_sublist hs hnd) hf₁
    rwa [hfid] at this
  exact Relation.TransGen.head' ⟨f, hl₁, hp⟩
    (chain_survives hnd hs hsurv hprot m hmt)

/-! ### Disjointness of sibling subtrees and subtree decomposition -/

theorem sibling_subtrees_disjoint_aux {fs : List FolderT} (hac : AcyclicP fs)
    {a b r : Nat} (ha : pRel fs a r) (hb : pRel fs b r) (hne : a ≠ b)
    (hab : Relation.ReflTransGen (pRel fs) a b) : False := by
  have htg : Relation.TransGen (pRel fs) a b := by
    rcases Relation.reflTransGen_iff_eq_or_transGen.mp hab with h | h
    · exact absurd h.symm hne
    · exact h
  obtain ⟨m, ham, hmb⟩ := Relation.TransGen.head'_iff.mp htg
  have hmr : m = r := pRel_right_unique fs ham ha
  cases hmr
  exact hac r (Relation.TransGen.tail' hmb hb)

theorem sibling_subtrees_disjoint {fs : List FolderT} (hac : AcyclicP fs)
    {a b r : Nat} (ha : pRel fs a r) (hb : pRel fs b r) (hne : a ≠ b)
    {x : Nat} (hxa : Sub fs a x) (hxb : Sub fs b x) : False := by
  rcases Relation.ReflTransGen.total_of_right_unique (pRel_right_unique fs)
      hxa hxb with h | h
  · exact sibling_subtrees_disjoint_aux hac ha hb hne h
  · exact sibling_subtrees_disjoint_aux hac hb ha hne.symm h

theorem sub_decomp {fs : List FolderT} {r x : Nat} :
    Sub fs r x ↔ x = r ∨ ∃ c, pRel fs c r ∧ Sub fs c x := by
  constructor
  · intro h
    rcases Relation.ReflTransGen.cases_tail h with h1 | ⟨c, h1, h2⟩
    · exact Or.inl h1.symm
    · exact Or.inr ⟨c, h2, h1⟩
  · rintro (rfl | ⟨c, hc, hsub⟩)
    · exact Relation.ReflTransGen.refl
    · exact hsub.tail hc

theorem children_mem_iff {fs : List FolderT} (hnd : (idsOf fs).Nodup)
    (hpo : ParentsOk fs) {r o : Nat} {F : FolderT}
    (hl : lookupFolder fs r = some F) (ho : F.ownerId = o) {c : Nat} :
    (c ∈ (fs.filter
        (fun f => f.parentId == some r && f.ownerId == o)).map (·.id))
      ↔ pRel fs c r := by
  constructor
  · intro hc
    simp only [List.mem_map] at hc
    obtain ⟨f, hf, hfc⟩ := hc
    obtain ⟨hfmem, hb⟩ := List.mem_filter.mp hf
    simp only [Bool.and_eq_true, beq_iff_eq] at hb
    have hlf : lookupFolder fs c = some f := by
      have := lookupFolder_of_mem hnd hfmem
      rwa [hfc] at this
    exact ⟨f, hlf, hb.1⟩
  · intro hc
    obtain ⟨f, hf, hp⟩ := hc
    obtain ⟨hfmem, hfid⟩ := lookupFolder_eq_some hf
    have howner : f.ownerId = o := by
      rw [← pRel_owner_eq hnd hpo ⟨f, hf, hp⟩ hf hl]
      exact ho
    simp only [List.mem_map]
    exact ⟨f, List.mem_filter.mpr ⟨hfmem, by simp [hp, howner]⟩, hfid⟩

/-- Re-parenting `fid` under `np` preserves acyclicity provided `np`'s old
ancestor chain does not contain `fid` — the abstract core of the
`checkCircularReference` guard. -/
theorem acyclic_reparent {R R' : Nat → Nat → Prop} {fid np : Nat}
    (hsub : ∀ a b, R' a b → (a = fid ∧ b = np) ∨ (a ≠ fid ∧ R a b))
    (hacR : ∀ x, ¬ Relation.TransGen R x x)
    (hnp : ¬ Relation.ReflTransGen R np fid) :
    ∀ x, ¬ Relation.TransGen R' x x := by
  have lemB : ∀ y, Relation.ReflTransGen R' np y →
      Relation.ReflTransGen R np y := by
    intro y h
    induction h with
    | refl => exact .refl
    | tail hzy hedge ih =>
      rcases hsub _ _ hedge with ⟨hbfid, -⟩ | ⟨-, hR⟩
      · exact absurd (hbfid ▸ ih) hnp
      · exact ih.tail hR
  have lemE : ∀ x y, Relation.TransGen R' x y →
      Relation.TransGen R x y ∨
        (Relation.ReflTransGen R x fid ∧ Relation.ReflTransGen R' np y) := by
    intro x y h
    induction h using Relation.TransGen.head_induction_on with
    | base hedge =>
      rcases hsub _ _ hedge with ⟨hafid, hbnp⟩ | ⟨-, hR⟩
      · exact Or.inr ⟨hafid ▸ Relation.ReflTransGen.refl,
          hbnp ▸ Relation.ReflTransGen.refl⟩
      · exact Or.inl (Relation.TransGen.single hR)
    | ih hedge htail IH =>
      rcases hsub _ _ hedge with ⟨hafid, hcnp⟩ | ⟨-, hR⟩
      · exact Or.inr ⟨hafid ▸ Relation.ReflTransGen.refl,
          hcnp ▸ htail.to_reflTransGen⟩
      · rcases IH with h1 | ⟨h1, h2⟩
        · exact Or.inl (h1.head hR)
        · exact Or.inr ⟨h1.head hR, h2⟩
  intro x hcyc
  rcases lemE x x hcyc with h1 | ⟨h1, h2⟩
  · exact hacR x h1
  · exact hnp ((lemB x h2).trans h1)

/-! ### The recursive delete removes exactly the subtree, depth-first -/

theorem deleteRec_spec :
    ∀ (fuel : Nat) (σ : StoreState) (r o : Nat) (F : FolderT),
      (idsOf σ.folders).Nodup → ParentsOk σ.folders → AcyclicP σ.folders →
      lookupFolder σ.folders r = some F → F.ownerId = o →
      (∃ l : List Nat, l.Nodup ∧ (∀ x, Sub σ.folders r x → x ∈ l) ∧
        l.length < fuel) →
      RecSpec σ r (deleteFolderRecursively fuel σ r o) := by
  intro fuel
  induction fuel with
  | zero =>
    rintro σ r o F - - - - - ⟨l, -, -, hlen⟩
    omega
  | succ n ihRec =>
    have hlist : ∀ (cs : List Nat) (σ : StoreState) (o : Nat),
        (idsOf σ.folders).Nodup → ParentsOk σ.folders → AcyclicP σ.folders →
        (∀ c ∈ cs, ∃ Fc, lookupFolder σ.folders c = some Fc ∧ Fc.ownerId = o) →
        cs.Nodup →
        (∀ a ∈ cs, ∀ b ∈ cs, a ≠ b → ∀ x, Sub σ.folders a x →
          Sub σ.folders b x → False) →
        (∃ l : List Nat, l.Nodup ∧
          (∀ x c, c ∈ cs → Sub σ.folders c x → x ∈ l) ∧ l.length < n) →
        RecSpecL σ cs
          (runChildren (fun σ' c => deleteFolderRecursively n σ' c o) σ cs) := by
      intro cs
      induction cs with
      | nil =>
        intro σ o hnd hpo hac hroots hcnd hdisj hcov
        refine ⟨List.Sublist.refl _, List.Sublist.refl _, ?_, ?_, ?_, ?_, ?_⟩
        · intro g hg
          simp [runChildren, hg]
        · intro h hh
          simp [runChildren, hh]
        · intro x
          simp [runChildren]
        · simp [runChildren]
        · simp [runChildren]
      | cons c cs' ihcs =>
        intro σ o hnd hpo hac hroots hcnd hdisj hcov
        obtain ⟨Fc, hlc, hoc⟩ := hroots c (List.mem_cons_self c cs')
        obtain ⟨l, hlnd, hlcov, hllen⟩ := hcov
        have hccs' : c ∉ cs' := (List.nodup_cons.mp hcnd).1
        have h₁ := ihRec σ c o Fc hnd hpo hac hlc hoc
          ⟨l, hlnd, fun x hx => hlcov x c (List.mem_cons_self c cs') hx, hllen⟩
        obtain ⟨hs1, hs2, hs3, hs4, hs5, hs6, hs7, hs8⟩ := h₁
        set r₁ := deleteFolderRecursively n σ c o with hr₁
        set σ₁ := r₁.1 with hσ₁
        have hnd₁ : (idsOf σ₁.folders).Nodup := nodup_ids_of_sublist hs1 hnd
        have hsurv : ∀ g ∈ σ.folders, ¬ Sub σ.folders c g.id →
            g ∈ σ₁.folders := fun g hg hn => (hs3 g hg).mpr hn
        have hpo₁ : ParentsOk σ₁.folders := by
          intro g hg p hp
          have hgσ : g ∈ σ.folders := hs1.subset hg
          have hgnot : ¬ Sub σ.folders c g.id := (hs3 g hgσ).mp hg
          obtain ⟨pg, hpgmem, hpgid, hpgo⟩ := hpo g hgσ p hp
          have hpnot : ¬ Sub σ.folders c p := by
            intro hsubp
            exact hgnot
              (Relation.ReflTransGen.head (pRel_of_mem_parent hnd hgσ hp) hsubp)
          exact ⟨pg, hsurv pg hpgmem (by rw [hpgid]; exact hpnot), hpgid, hpgo⟩
        have hac₁ : AcyclicP σ₁.folders := acyclic_of_sublist hs1 hnd hac
        have hneq : ∀ c' ∈ cs', c ≠ c' := by
          intro c' hc' h
          exact hccs' (h ▸ hc')
        have hnotc : ∀ c' ∈ cs', ¬ Sub σ.folders c c' := by
          intro c' hc' hsub
          exact hdisj c (List.mem_cons_self c cs') c'
            (List.mem_cons_of_mem c hc') (hneq c' hc') c' hsub
            Relation.ReflTransGen.refl
        have hprot : ∀ c' ∈ cs', ∀ z,
            Relation.ReflTransGen (pRel σ.folders) z c' →
              ¬ Sub σ.folders c z := by
          intro c' hc' z hz hsubz
          exact hdisj c (List.mem_cons_self c cs') c'
            (List.mem_cons_of_mem c hc') (hneq c' hc') z hsubz hz
        have hup : ∀ c' ∈ cs', ∀ x, Sub σ.folders c' x → Sub σ₁.folders c' x := by
          intro c' hc' x hx
          exact chain_survives hnd hs1 (D := fun z => Sub σ.folders c z)
            hsurv (hprot c' hc') x hx
        have hroots₁ : ∀ c' ∈ cs',
            ∃ Fc', lookupFolder σ₁.folders c' = some Fc' ∧ Fc'.ownerId = o := by
          intro c' hc'
          obtain ⟨Fc', hlc', hoc'⟩ := hroots c' (List.mem_cons_of_mem c hc')
          obtain ⟨hFm, hFid⟩ := lookupFolder_eq_some hlc'
          have hF₁ : Fc' ∈ σ₁.folders := hsurv Fc' hFm
            (by rw [hFid]; exact hnotc c' hc')
          refine ⟨Fc', ?_, hoc'⟩
          have := lookupFolder_of_mem hnd₁ hF₁
          rwa [hFid] at this
        have hdisj₁ : ∀ a ∈ cs', ∀ b ∈ cs', a ≠ b → ∀ x, Sub σ₁.folders a x →
            Sub σ₁.folders b x → False := by
          intro a ha b hb hne x hxa hxb
          exact hdisj a (List.mem_cons_of_mem c ha) b (List.mem_cons_of_mem c hb)
            hne x (sub_of_sublist hs1 hnd hxa) (sub_of_sublist hs1 hnd hxb)
        have h₂ := ihcs σ₁ o hnd₁ hpo₁ hac₁ hroots₁ (List.nodup_cons.mp hcnd).2
          hdisj₁ ⟨l, hlnd,
            fun x c' hc' hx => hlcov x c' (List.mem_cons_of_mem c hc')
              (sub_of_sublist hs1 hnd hx), hllen⟩
        obtain ⟨ht1, ht2, ht3, ht4, ht5, ht6, ht7⟩ := h₂
        set r₂ := runChildren (fun σ' c => deleteFolderRecursively n σ' c o)
          σ₁ cs' with hr₂
        show RecSpecL σ (c :: cs') (r₂.1, r₁.2 ++ r₂.2)
        refine ⟨ht1.trans hs1, ht2.trans hs2, ?_, ?_, ?_, ?_, ?_⟩
        · intro g hg
          by_cases hgc : Sub σ.folders c g.id
          · constructor
            · intro hmem
              exact (((hs3 g hg).mp (ht1.subset hmem)) hgc).elim
            · intro hno
              exact (hno ⟨c, List.mem_cons_self c cs', hgc⟩).elim
          · have hg₁ : g ∈ σ₁.folders := hsurv g hg hgc
            have hiff := ht3 g hg₁
            constructor
            · intro hmem hex
              obtain ⟨c', hc', hsub⟩ := hex
              rcases List.mem_cons.mp hc' with rfl | hc'
              · exact hgc hsub
              · exact (hiff.mp hmem) ⟨c', hc', hup c' hc' _ hsub⟩
            · intro hno
              apply hiff.mpr
              rintro ⟨c', hc', hsub₁⟩
              exact hno ⟨c', List.mem_cons_of_mem c hc',
                sub_of_sublist hs1 hnd hsub₁⟩
        · intro h hh
          by_cases hfc : ∃ cc, h.folderId = some cc ∧ Sub σ.folders c cc
          · constructor
            · intro hmem
              exact (((hs4 h hh).mp (ht2.subset hmem)) hfc).elim
            · intro hno
              exact (hno ⟨c, List.mem_cons_self c cs', hfc⟩).elim
          · have hh₁ : h ∈ σ₁.files := (hs4 h hh).mpr hfc
            have hiff := ht4 h hh₁
            constructor
            · intro hmem hex
              obtain ⟨c', hc', cc, hcc, hsub⟩ := hex
              rcases List.mem_cons.mp hc' with rfl | hc'
              · exact hfc ⟨cc, hcc, hsub⟩
              · exact (hiff.mp hmem) ⟨c', hc', cc, hcc, hup c' hc' cc hsub⟩
            · intro hno
              apply hiff.mpr
              rintro ⟨c', hc', cc, hcc, hsub₁⟩
              exact hno ⟨c', List.mem_cons_of_mem c hc', cc, hcc,
                sub_of_sublist hs1 hnd hsub₁⟩
        · intro x
          constructor
          · intro hx
            rcases List.mem_append.mp hx with h1 | h2
            · exact ⟨c, List.mem_cons_self c cs', (hs5 x).mp h1⟩
            · obtain ⟨c', hc', hsub⟩ := (ht5 x).mp h2
              exact ⟨c', List.mem_cons_of_mem c hc',
                sub_of_sublist hs1 hnd hsub⟩
          · rintro ⟨c', hc', hsub⟩
            rcases List.mem_cons.mp hc' with rfl | hc'
            · exact List.mem_append_left _ ((hs5 x).mpr hsub)
            · exact List.mem_append_right _
                ((ht5 x).mpr ⟨c', hc', hup c' hc' x hsub⟩)
        · rw [List.nodup_append]
          refine ⟨hs7, ht6, ?_⟩
          intro a ha1 ha2
          have hsuba : Sub σ.folders c a := (hs5 a).mp ha1
          obtain ⟨c', hc', hsub₁⟩ := (ht5 a).mp ha2
          exact hprot c' hc' a (sub_of_sublist hs1 hnd hsub₁) hsuba
        · rw [List.pairwise_append]
          refine ⟨hs8, ?_, ?_⟩
          · refine List.Pairwise.imp_of_mem ?_ ht7
            intro x y hx hy hxy htg
            obtain ⟨cx, hcx, hsubx₁⟩ := (ht5 x).mp hx
            have hsubx : Sub σ.folders cx x := sub_of_sublist hs1 hnd hsubx₁
            have hprotx : ∀ z, Relation.ReflTransGen (pRel σ.folders) z x →
                ¬ Sub σ.folders c z := by
              intro z hz
              exact hprot cx hcx z (hz.trans hsubx)
            exact hxy (transGen_survives hnd hs1
              (D := fun z => Sub σ.folders c z) hsurv hprotx y htg)
          · intro x hx y hy htg
            have hxc : Sub σ.folders c x := (hs5 x).mp hx
            obtain ⟨cy, hcy, hsuby₁⟩ := (ht5 y).mp hy
            have hsuby : Sub σ.folders cy y := sub_of_sublist hs1 hnd hsuby₁
            rcases Relation.ReflTransGen.total_of_right_unique
                (pRel_right_unique σ.folders) htg.to_reflTransGen hsuby with
              h | h
            · exact hprot cy hcy x h hxc
            · exact hprot cy hcy cy Relation.ReflTransGen.refl (h.trans hxc)
    -- the folder case at fuel n + 1
    intro σ r o F hnd hpo hac hl ho hcov
    obtain ⟨l, hlnd, hlcov, hllen⟩ := hcov
    set cs := (σ.folders.filter
      (fun f => f.parentId == some r && f.ownerId == o)).map (·.id) with hcsdef
    have hchild : ∀ c, c ∈ cs ↔ pRel σ.folders c r := fun c =>
      children_mem_iff hnd hpo hl ho
    have hrl : r ∈ l := hlcov r Relation.ReflTransGen.refl
    have hcov' : ∀ x c, c ∈ cs → Sub σ.folders c x → x ∈ l.erase r := by
      intro x c hc hx
      have hcr : pRel σ.folders c r := (hchild c).mp hc
      have hxl : x ∈ l := hlcov x (hx.tail hcr)
      have hxner : x ≠ r := by
        rintro rfl
        exact hac x (Relation.TransGen.tail' hx hcr)
      exact (List.Nodup.mem_erase_iff hlnd).mpr ⟨hxner, hxl⟩
    have hclen : (l.erase r).length < n := by
      have h1 : 0 < l.length := List.length_pos_of_mem hrl
      rw [List.length_erase_of_mem hrl]
      omega
    have hroots : ∀ c ∈ cs,
        ∃ Fc, lookupFolder σ.folders c = some Fc ∧ Fc.ownerId = o := by
      intro c hc
      rw [hcsdef] at hc
      simp only [List.mem_map] at hc
      obtain ⟨f, hf, hfc⟩ := hc
      obtain ⟨hfm, hpred⟩ := List.mem_filter.mp hf
      simp only [Bool.and_eq_true, beq_iff_eq] at hpred
      refine ⟨f, ?_, hpred.2⟩
      have := lookupFolder_of_mem hnd hfm
      rwa [hfc] at this
    have hcnod : cs.Nodup := by
      have h0 := nodup_ids_of_sublist
        (@List.filter_sublist FolderT
          (fun f => f.parentId == some r && f.ownerId == o) σ.folders) hnd
      simpa [idsOf, hcsdef] using h0
    have hdisj : ∀ a ∈ cs, ∀ b ∈ cs, a ≠ b → ∀ x, Sub σ.folders a x →
        Sub σ.folders b x → False := by
      intro a ha b hb hne x hxa hxb
      exact sibling_subtrees_disjoint hac ((hchild a).mp ha) ((hchild b).mp hb)
        hne hxa hxb
    have h₂ := hlist cs σ o hnd hpo hac hroots hcnod hdisj
      ⟨l.erase r, hlnd.erase r, hcov', hclen⟩
    obtain ⟨ht1, ht2, ht3, ht4, ht5, ht6, ht7⟩ := h₂
    set R := runChildren (fun σ' c => deleteFolderRecursively n σ' c o) σ cs
      with hRdef
    have hdec : ∀ x, Sub σ.folders r x ↔
        (x = r ∨ ∃ c ∈ cs, Sub σ.folders c x) := by
      intro x
      rw [sub_decomp]
      constructor
      · rintro (rfl | ⟨c, hcr, hsub⟩)
        · exact Or.inl rfl
        · exact Or.inr ⟨c, (hchild c).mpr hcr, hsub⟩
      · rintro (rfl | ⟨c, hc, hsub⟩)
        · exact Or.inl rfl
        · exact Or.inr ⟨c, (hchild c).mp hc, hsub⟩
    have hrnot : ∀ c ∈ cs, ¬ Sub σ.folders c r := by
      intro c hc hsub
      exact hac r (Relation.TransGen.tail' hsub ((hchild c).mp hc))
    show RecSpec σ r (removeFolderCascade R.1 r, R.2 ++ [r])
    have hmf : ∀ g : FolderT,
        g ∈ (removeFolderCascade R.1 r).folders ↔
          g ∈ R.1.folders ∧ g.id ≠ r := by
      intro g
      simp [removeFolderCascade, List.mem_filter]
    have hmh : ∀ h : FileT,
        h ∈ (removeFolderCascade R.1 r).files ↔
          h ∈ R.1.files ∧ h.folderId ≠ some r := by
      intro h
      simp [removeFolderCascade, List.mem_filter]
    refine ⟨(List.filter_sublist _).trans ht1, (List.filter_sublist _).trans ht2,
      ?_, ?_, ?_, ?_, ?_, ?_⟩
    · intro g hg
      rw [hmf g]
      constructor
      · rintro ⟨hmem, hner⟩ hsub
        rcases (hdec g.id).mp hsub with h | ⟨c, hc, hsubc⟩
        · exact hner h
        · exact ((ht3 g hg).mp hmem) ⟨c, hc, hsubc⟩
      · intro hno
        refine ⟨(ht3 g hg).mpr ?_, ?_⟩
        · rintro ⟨c, hc, hsubc⟩
          exact hno ((hdec g.id).mpr (Or.inr ⟨c, hc, hsubc⟩))
        · intro h
          exact hno ((hdec g.id).mpr (Or.inl h))
    · intro h hh
      rw [hmh h]
      constructor
      · rintro ⟨hmem, hfr⟩ ⟨cc, hcc, hsub⟩
        rcases (hdec cc).mp hsub with rfl | ⟨c, hc, hsubc⟩
        · exact hfr hcc
        · exact ((ht4 h hh).mp hmem) ⟨c, hc, cc, hcc, hsubc⟩
      · intro hno
        constructor
        · refine (ht4 h hh).mpr ?_
          rintro ⟨c, hc, cc, hcc, hsubc⟩
          exact hno ⟨cc, hcc, (hdec cc).mpr (Or.inr ⟨c, hc, hsubc⟩)⟩
        · intro hfr
          exact hno ⟨r, hfr, Relation.ReflTransGen.refl⟩
    · intro x
      rw [hdec x]
      constructor
      · intro hx
        rcases List.mem_append.mp hx with h1 | h2
        · exact Or.inr ((ht5 x).mp h1)
        · exact Or.inl (by simpa using h2)
      · rintro (rfl | hex)
        · exact List.mem_append_right _ (by simp)
        · exact List.mem_append_left _ ((ht5 x).mpr hex)
    · exact List.getLast?_concat _
    · rw [List.nodup_append]
      refine ⟨ht6, List.nodup_singleton r, ?_⟩
      intro a ha1 ha2
      obtain ⟨c, hc, hsub⟩ := (ht5 a).mp ha1
      have : a = r := by simpa using ha2
      exact hrnot c hc (this ▸ hsub)
    · rw [List.pairwise_append]
      refine ⟨ht7, List.pairwise_singleton _ r, ?_⟩
      intro x hx y hy htg
      have hyr : y = r := by simpa using hy
      subst hyr
      obtain ⟨cx, hcx, hsubx⟩ := (ht5 x).mp hx
      exact hac y ((htg.trans_left hsubx).tail ((hchild cx).mp hcx))

/-! ### Claim C5 — recursive delete removes the whole subtree, depth-first -/

/-- C5: forced delete removes exactly the subtree of the target folder —
every folder whose parent chain reaches the target, and every file in such a
folder, is gone (a lookup of a removed id yields `none`), everything else
survives; the deletion trace covers exactly the subtree, never deletes a
folder before any of its strict descendants, and ends with the target. -/
theorem C5_recursive_delete {σ σ' : StoreState} {u fid : Nat}
    {folder : FolderT} {tr : List Nat}
    (hinv : Inv σ = true)
    (hl : lookupFolder σ.folders fid = some folder) (ho : folder.ownerId = u)
    (hdel : deleteFolder σ u fid true = .ok (σ', tr)) :
    (∀ g ∈ σ.folders, Sub σ.folders fid g.id →
       g ∉ σ'.folders ∧ lookupFolder σ'.folders g.id = none) ∧
    (∀ g ∈ σ.folders, ¬ Sub σ.folders fid g.id → g ∈ σ'.folders) ∧
    (∀ h ∈ σ.files, (∃ c, h.folderId = some c ∧ Sub σ.folders fid c) →
       h ∉ σ'.files) ∧
    (∀ h ∈ σ.files, ¬ (∃ c, h.folderId = some c ∧ Sub σ.folders fid c) →
       h ∈ σ'.files) ∧
    (∀ x, x ∈ tr ↔ Sub σ.folders fid x) ∧
    tr.getLast? = some fid ∧
    tr.Pairwise (fun x y => ¬ Relation.TransGen (pRel σ.folders) y x) := by
  obtain ⟨hnd, hpo, hac, -⟩ := inv_elim hinv
  obtain ⟨folder', hl', ho', hcase⟩ := deleteFolder_ok hdel
  rcases hcase with ⟨-, heq⟩ | ⟨hff, -⟩
  · have hfidmem : fid ∈ idsOf σ.folders :=
      mem_idsOf.mpr ⟨folder, (lookupFolder_eq_some hl).1,
        (lookupFolder_eq_some hl).2⟩
    have hspec := deleteRec_spec (σ.folders.length + 1) σ fid u folder hnd hpo
      hac hl ho
      ⟨idsOf σ.folders, hnd, fun x hx => sub_mem_ids hfidmem hx,
        by simp [idsOf]⟩
    rw [← heq] at hspec
    obtain ⟨hs1, hs2, hs3, hs4, hs5, hs6, hs7, hs8⟩ := hspec
    refine ⟨?_, ?_, ?_, ?_, hs5, hs6, hs8⟩
    · intro g hg hsub
      refine ⟨fun hmem => ((hs3 g hg).mp hmem) hsub, ?_⟩
      cases hlk : lookupFolder σ'.folders g.id with
      | none => rfl
      | some f =>
        obtain ⟨hfmem, hfid⟩ := lookupFolder_eq_some hlk
        have hfσ : f ∈ σ.folders := hs1.subset hfmem
        have hfn : ¬ Sub σ.folders fid f.id := (hs3 f hfσ).mp hfmem
        rw [hfid] at hfn
        exact (hfn hsub).elim
    · intro g hg hn
      exact (hs3 g hg).mpr hn
    · intro h hh hex hmem
      exact ((hs4 h hh).mp hmem) hex
    · intro h hh hn
      exact (hs4 h hh).mpr hn
  · cases hff

theorem C5_recursive_delete_witness :
    ((∀ g ∈ ([⟨1, "Docs", 1, none⟩, ⟨2, "2024", 1, some 1⟩] : List FolderT),
      Sub [⟨1, "Docs", 1, none⟩, ⟨2, "2024", 1, some 1⟩] 1 g.id →
       g ∉ (⟨[], []⟩ : StoreState).folders ∧
        lookupFolder (⟨[], []⟩ : StoreState).folders g.id = none)) ∧
    (∀ g ∈ ([⟨1, "Docs", 1, none⟩, ⟨2, "2024", 1, some 1⟩] : List FolderT),
      ¬ Sub [⟨1, "Docs", 1, none⟩, ⟨2, "2024", 1, some 1⟩] 1 g.id →
       g ∈ (⟨[], []⟩ : StoreState).folders) ∧
    (∀ h ∈ ([⟨10, "r.pdf", "application/pdf", 5, "u", "p", some 2, 1⟩]
        : List FileT),
      (∃ c, h.folderId = some c ∧
        Sub [⟨1, "Docs", 1, none⟩, ⟨2, "2024", 1, some 1⟩] 1 c) →
       h ∉ (⟨[], []⟩ : StoreState).files) ∧
    (∀ h ∈ ([⟨10, "r.pdf", "application/pdf", 5, "u", "p", some 2, 1⟩]
        : List FileT),
      ¬ (∃ c, h.folderId = some c ∧
        Sub [⟨1, "Docs", 1, none⟩, ⟨2, "2024", 1, some 1⟩] 1 c) →
       h ∈ (⟨[], []⟩ : StoreState).files) ∧
    (∀ x, x ∈ [2, 1] ↔
      Sub [⟨1, "Docs", 1, none⟩, ⟨2, "2024", 1, some 1⟩] 1 x) ∧
    ([2, 1] : List Nat).getLast? = some 1 ∧
    ([2, 1] : List Nat).Pairwise (fun x y =>
      ¬ Relation.TransGen
        (pRel [⟨1, "Docs", 1, none⟩, ⟨2, "2024", 1, some 1⟩]) y x) :=
  @C5_recursive_delete
    ⟨[⟨1, "Docs", 1, none⟩, ⟨2, "2024", 1, some 1⟩],
      [⟨10, "r.pdf", "application/pdf", 5, "u", "p", some 2, 1⟩]⟩
    ⟨[], []⟩ 1 1 ⟨1, "Docs", 1, none⟩ [2, 1]
    (by decide) (by decide) (by decide) (by decide)

/-! ### Invariant preservation by the folder operations -/

theorem lookupFolder_append_right {fs : List FolderT} {nf : FolderT} {a : Nat}
    (h : lookupFolder fs a = none) :
    lookupFolder (fs ++ [nf]) a = if nf.id = a then some nf else none := by
  unfold lookupFolder at h ⊢
  rw [List.find?_append, h]
  cases hbeq : (nf.id == a) with
  | true =>
    have hid : nf.id = a := by simpa using hbeq
    simp [List.find?, hbeq, hid]
  | false =>
    have hid : ¬ nf.id = a := by simpa using hbeq
    simp [List.find?, hbeq, hid]

theorem pRel_append_single {fs : List FolderT} {nf : FolderT} {a b : Nat}
    (h : pRel (fs ++ [nf]) a b) :
    (a = nf.id ∧ nf.parentId = some b) ∨ pRel fs a b := by
  obtain ⟨f, hf, hp⟩ := h
  cases hfs : lookupFolder fs a with
  | some g =>
    rw [lookupFolder_append_left hfs] at hf
    injection hf with hf
    subst hf
    exact Or.inr ⟨g, hfs, hp⟩
  | none =>
    rw [lookupFolder_append_right hfs] at hf
    by_cases hid : nf.id = a
    · rw [if_pos hid] at hf
      cases hf
      exact Or.inl ⟨hid.symm, hp⟩
    · rw [if_neg hid] at hf
      cases hf

theorem createFolder_preserves {σ σ' : StoreState} {o i : Nat} {nm : String}
    {p : Option Nat} (hfresh : i ∉ idsOf σ.folders)
    (h : createFolder σ o nm p i = .ok σ') (hinvp : InvP σ) : InvP σ' := by
  obtain ⟨hn0, hn255, hpar, hdup, hσ'⟩ := createFolder_ok h
  subst hσ'
  obtain ⟨hnd, hpo, hac, hfo⟩ := hinvp
  have hnotgt : ∀ a b,
      pRel (σ.folders ++ [(⟨i, jsTrim nm, o, p⟩ : FolderT)]) a b → b ≠ i := by
    intro a b hp
    rcases pRel_append_single hp with ⟨-, hbp⟩ | hold
    · obtain ⟨pf, hpf, -⟩ := hpar b hbp
      rintro rfl
      exact hfresh (mem_idsOf.mpr ⟨pf, (lookupFolder_eq_some hpf).1,
        (lookupFolder_eq_some hpf).2⟩)
    · rintro rfl
      exact hfresh (pRel_tgt_mem hpo hold)
  have htrans : ∀ a b,
      Relation.TransGen (pRel (σ.folders ++ [(⟨i, jsTrim nm, o, p⟩ : FolderT)]))
        a b → a ≠ i → Relation.TransGen (pRel σ.folders) a b := by
    intro a b hab
    induction hab using Relation.TransGen.head_induction_on with
    | base hedge =>
      intro ha
      rcases pRel_append_single hedge with ⟨h1, -⟩ | hold
      · exact absurd h1 ha
      · exact Relation.TransGen.single hold
    | ih hedge htail IH =>
      intro ha
      rcases pRel_append_single hedge with ⟨h1, -⟩ | hold
      · exact absurd h1 ha
      · exact (IH fun hc => hfresh (hc ▸ pRel_tgt_mem hpo hold)).head hold
  refine ⟨?_, ?_, ?_, ?_⟩
  · simp only [idsOf, List.map_append, List.map_cons, List.map_nil]
    rw [List.nodup_append]
    refine ⟨hnd, List.nodup_singleton i, ?_⟩
    intro a ha hai
    have : a = i := by simpa using hai
    subst this
    exact hfresh (by simpa [idsOf] using ha)
  · intro f hf pp hpp
    rcases List.mem_append.mp hf with hf | hf
    · obtain ⟨g, hg, hgid, hgo⟩ := hpo f hf pp hpp
      exact ⟨g, List.mem_append_left _ hg, hgid, hgo⟩
    · have hfe : f = ⟨i, jsTrim nm, o, p⟩ := by simpa using hf
      subst hfe
      obtain ⟨pf, hpf, hpfo⟩ := hpar pp hpp
      exact ⟨pf, List.mem_append_left _ (lookupFolder_eq_some hpf).1,
        (lookupFolder_eq_some hpf).2, hpfo⟩
  · intro x hcyc
    have hxi : x ≠ i := by
      obtain ⟨m, -, hmx⟩ := Relation.TransGen.tail'_iff.mp hcyc
      exact hnotgt m x hmx
    exact hac x (htrans x x hcyc hxi)
  · intro hfl hh c hc
    obtain ⟨g, hg, hgid, hgo⟩ := hfo hfl hh c hc
    exact ⟨g, List.mem_append_left _ hg, hgid, hgo⟩

theorem lookupFolder_applyUpdate (σ : StoreState) (fid : Nat) (nm : String)
    (pin : Option Nat) (x : Nat) :
    lookupFolder (applyUpdate σ fid nm pin).folders x =
      (lookupFolder σ.folders x).map (fun f =>
        if f.id = fid then { f with name := nm, parentId := pin } else f) := by
  unfold applyUpdate lookupFolder
  dsimp only
  rw [List.find?_map]
  have hpred : ((fun f : FolderT => f.id == x) ∘ (fun f =>
      if f.id = fid then { f with name := nm, parentId := pin } else f)) =
      fun f : FolderT => f.id == x := by
    funext f
    by_cases hf : f.id = fid <;> simp [hf]
  rw [hpred]

theorem not_mem_ids_of_lookup_none {fs : List FolderT} {a : Nat}
    (h : lookupFolder fs a = none) : a ∉ idsOf fs := by
  intro ha
  obtain ⟨f, hf, hfa⟩ := mem_idsOf.mp ha
  have := List.find?_eq_none.mp h f hf
  simp [hfa] at this

theorem pRel_applyUpdate {σ : StoreState} {fid : Nat} {nm : String}
    {pin : Option Nat} {a b : Nat} :
    pRel (applyUpdate σ fid nm pin).folders a b →
      (a = fid ∧ pin = some b) ∨ (a ≠ fid ∧ pRel σ.folders a b) := by
  intro h
  obtain ⟨f, hf, hp⟩ := h
  rw [lookupFolder_applyUpdate] at hf
  cases hl : lookupFolder σ.folders a with
  | none => rw [hl] at hf; cases hf
  | some g =>
    rw [hl] at hf
    have hga : g.id = a := (lookupFolder_eq_some hl).2
    dsimp only [Option.map] at hf
    by_cases hgid : g.id = fid
    · rw [if_pos hgid] at hf
      cases hf
      exact Or.inl ⟨by rw [← hga, hgid], hp⟩
    · rw [if_neg hgid] at hf
      cases hf
      exact Or.inr ⟨by rw [← hga]; exact hgid, ⟨f, hl, hp⟩⟩

theorem updateFolder_preserves {σ σ' : StoreState} {u fid : Nat} {nm : String}
    {pin : Option Nat} (h : updateFolder σ u fid nm pin = .ok σ')
    (hinvp : InvP σ) : InvP σ' := by
  obtain ⟨folder, hl, ho, -, -, hσ', hrest⟩ := updateFolder_ok h
  subst hσ'
  obtain ⟨hnd, hpo, hac, hfo⟩ := hinvp
  have hids : idsOf (applyUpdate σ fid (jsTrim nm) pin).folders =
      idsOf σ.folders := by
    simp only [applyUpdate, idsOf, List.map_map]
    apply List.map_congr_left
    intro f _
    by_cases hf : f.id = fid <;> simp [hf]
  refine ⟨?_, ?_, ?_, ?_⟩
  · rw [hids]
    exact hnd
  · intro f' hf' pp hpp
    simp only [applyUpdate, List.mem_map] at hf'
    obtain ⟨f, hfmem, hfe⟩ := hf'
    by_cases hfid : f.id = fid
    · rw [if_pos hfid] at hfe
      subst hfe
      simp only at hpp
      have hffolder : f = folder :=
        id_inj hnd hfmem (lookupFolder_eq_some hl).1
          (by rw [hfid, (lookupFolder_eq_some hl).2])
      rcases hrest with rfl | ⟨np, pf, rfl, hself, hlp, hpfo, -⟩
      · cases hpp
      · have hppnp : pp = np := by
          injection hpp with hx
          exact hx.symm
        subst hppnp
        have hpfid : pf.id = pp := (lookupFolder_eq_some hlp).2
        refine ⟨if pf.id = fid then
            { pf with name := jsTrim nm, parentId := some pp } else pf, ?_, ?_, ?_⟩
        · simp only [applyUpdate, List.mem_map]
          exact ⟨pf, (lookupFolder_eq_some hlp).1, rfl⟩
        · by_cases hq : pf.id = fid
          · exact absurd (by rw [← hpfid]; exact hq) hself
          · rw [if_neg hq]
            exact hpfid
        · have hfu : f.ownerId = u := by rw [hffolder]; exact ho
          by_cases hq : pf.id = fid
          · exact absurd (by rw [← hpfid]; exact hq) hself
          · rw [if_neg hq]
            exact hpfo.trans hfu.symm
    · rw [if_neg hfid] at hfe
      subst hfe
      obtain ⟨pg, hpg, hpgid, hpgo⟩ := hpo f hfmem pp hpp
      refine ⟨if pg.id = fid then
          { pg with name := jsTrim nm, parentId := pin } else pg, ?_, ?_, ?_⟩
      · simp only [applyUpdate, List.mem_map]
        exact ⟨pg, hpg, rfl⟩
      · by_cases hq : pg.id = fid
        · rw [if_pos hq]
          exact hpgid
        · rw [if_neg hq]
          exact hpgid
      · by_cases hq : pg.id = fid
        · rw [if_pos hq]
          exact hpgo
        · rw [if_neg hq]
          exact hpgo
  · rcases hrest with rfl | ⟨np, pf, rfl, hself, hlp, hpfo, hwalk⟩
    · intro x hcyc
      have hsub : ∀ a b, pRel (applyUpdate σ fid (jsTrim nm) none).folders a b →
          pRel σ.folders a b := by
        intro a b hab
        rcases pRel_applyUpdate hab with ⟨-, hx⟩ | ⟨-, hx⟩
        · cases hx
        · exact hx
      exact hac x (Relation.TransGen.mono hsub hcyc)
    · have hnp : ¬ Relation.ReflTransGen (pRel σ.folders) np fid := by
        intro hrt
        have := ccr_complete hnd hpo hac hrt
          (mem_idsOf.mpr ⟨pf, (lookupFolder_eq_some hlp).1,
            (lookupFolder_eq_some hlp).2⟩) (Nat.lt_succ_self σ.folders.length)
        rw [hwalk] at this
        cases this
      refine acyclic_reparent ?_ hac hnp
      intro a b hab
      rcases pRel_applyUpdate hab with ⟨ha, hb⟩ | ⟨ha, hb⟩
      · injection hb with hb
        exact Or.inl ⟨ha, hb.symm⟩
      · exact Or.inr ⟨ha, hb⟩
  · intro hfl hh c hc
    obtain ⟨g, hg, hgid, hgo⟩ := hfo hfl hh c hc
    refine ⟨if g.id = fid then
        { g with name := jsTrim nm, parentId := pin } else g, ?_, ?_, ?_⟩
    · simp only [applyUpdate, List.mem_map]
      exact ⟨g, hg, rfl⟩
    · by_cases hq : g.id = fid
      · rw [if_pos hq]
        exact hgid
      · rw [if_neg hq]
        exact hgid
    · by_cases hq : g.id = fid
      · rw [if_pos hq]
        exact hgo
      · rw [if_neg hq]
        exact hgo

theorem mem_removeCascade_folders {σ : StoreState} {fid : Nat} {g : FolderT} :
    g ∈ (removeFolderCascade σ fid).folders ↔ g ∈ σ.folders ∧ g.id ≠ fid := by
  simp [removeFolderCascade, List.mem_filter]

theorem mem_removeCascade_files {σ : StoreState} {fid : Nat} {h : FileT} :
    h ∈ (removeFolderCascade σ fid).files ↔
      h ∈ σ.files ∧ h.folderId ≠ some fid := by
  simp [removeFolderCascade, List.mem_filter]

theorem deleteFolder_preserves {σ σ' : StoreState} {u fid : Nat} {force : Bool}
    {tr : List Nat} (h : deleteFolder σ u fid force = .ok (σ', tr))
    (hinvp : InvP σ) : InvP σ' := by
  obtain ⟨hnd, hpo, hac, hfo⟩ := hinvp
  obtain ⟨folder, hl, ho, hcase⟩ := deleteFolder_ok h
  rcases hcase with ⟨-, heq⟩ | ⟨-, hcz, hfz, hσ', -⟩
  · have hfidmem : fid ∈ idsOf σ.folders :=
      mem_idsOf.mpr ⟨folder, (lookupFolder_eq_some hl).1,
        (lookupFolder_eq_some hl).2⟩
    have hspec := deleteRec_spec (σ.folders.length + 1) σ fid u folder hnd hpo
      hac hl ho
      ⟨idsOf σ.folders, hnd, fun x hx => sub_mem_ids hfidmem hx,
        by simp [idsOf]⟩
    rw [← heq] at hspec
    obtain ⟨hs1, hs2, hs3, hs4, -, -, -, -⟩ := hspec
    refine ⟨nodup_ids_of_sublist hs1 hnd, ?_, acyclic_of_sublist hs1 hnd hac, ?_⟩
    · intro g hg p hp
      have hgσ : g ∈ σ.folders := hs1.subset hg
      have hgnot : ¬ Sub σ.folders fid g.id := (hs3 g hgσ).mp hg
      obtain ⟨pg, hpgmem, hpgid, hpgo⟩ := hpo g hgσ p hp
      have hpnot : ¬ Sub σ.folders fid p := fun hsubp =>
        hgnot (Relation.ReflTransGen.head (pRel_of_mem_parent hnd hgσ hp) hsubp)
      exact ⟨pg, (hs3 pg hpgmem).mpr (by rw [hpgid]; exact hpnot), hpgid, hpgo⟩
    · intro hfl hh c hc
      have hhσ : hfl ∈ σ.files := hs2.subset hh
      have hhnot := (hs4 hfl hhσ).mp hh
      obtain ⟨g, hg, hgid, hgo⟩ := hfo hfl hhσ c hc
      have hcnot : ¬ Sub σ.folders fid c := fun hsubc => hhnot ⟨c, hc, hsubc⟩
      exact ⟨g, (hs3 g hg).mpr (by rw [hgid]; exact hcnot), hgid, hgo⟩
  · subst hσ'
    have hnochild : ∀ f ∈ σ.folders, f.parentId = some fid → f.ownerId ≠ u := by
      intro f hf hp hown
      have := List.countP_eq_zero.mp hcz f hf
      simp [hp, hown] at this
    refine ⟨nodup_ids_of_sublist (List.filter_sublist _) hnd, ?_,
      acyclic_of_sublist (List.filter_sublist _) hnd hac, ?_⟩
    · intro g hg p hp
      obtain ⟨hgσ, hgne⟩ := mem_removeCascade_folders.mp hg
      have hpne : p ≠ fid := by
        rintro rfl
        obtain ⟨g', hg', hg'id, hg'o⟩ := hpo g hgσ p hp
        have : g' = folder := id_inj hnd hg' (lookupFolder_eq_some hl).1
          (by rw [hg'id, (lookupFolder_eq_some hl).2])
        subst this
        exact hnochild g hgσ hp (by rw [← hg'o, ho])
      obtain ⟨pg, hpg, hpgid, hpgo⟩ := hpo g hgσ p hp
      exact ⟨pg, mem_removeCascade_folders.mpr ⟨hpg, by rw [hpgid]; exact hpne⟩,
        hpgid, hpgo⟩
    · intro hfl hh c hc
      obtain ⟨hhσ, hhne⟩ := mem_removeCascade_files.mp hh
      have hcne : c ≠ fid := by
        rintro rfl
        exact hhne hc
      obtain ⟨g, hg, hgid, hgo⟩ := hfo hfl hhσ c hc
      exact ⟨g, mem_removeCascade_folders.mpr ⟨hg, by rw [hgid]; exact hcne⟩,
        hgid, hgo⟩

/-- Every reachable state satisfies the invariant. -/
theorem reachable_invP {σ : StoreState} (h : Reachable σ) : InvP σ := by
  induction h with
  | refl =>
    refine ⟨List.nodup_nil, ?_, ?_, ?_⟩
    · intro f hf
      cases hf
    · intro x hcyc
      obtain ⟨m, hxm, -⟩ := Relation.TransGen.head'_iff.mp hcyc
      obtain ⟨f, hf, -⟩ := hxm
      cases hf
    · intro hfl hh
      cases hh
  | tail hstep hlast ih =>
    cases hlast with
    | create hfresh hok => exact createFolder_preserves hfresh hok ih
    | update hok => exact updateFolder_preserves hok ih
    | delete hok => exact deleteFolder_preserves hok ih

/-! ### Claim C1 — reachable folder stores stay acyclic, chains reach null -/

/-- C1: in every store reachable from empty by create / rename-move / delete
operations, every folder's parent chain reaches a null parent within
`|folders| + 1` steps, and no folder is its own strict ancestor — in
particular no sequence of moves ever builds a cycle. -/
theorem C1_chains_terminate {σ : StoreState} (h : Reachable σ) :
    (∀ f ∈ σ.folders,
      reachesNull σ.folders (σ.folders.length + 1) f.id = true) ∧
    ∀ x, ¬ Relation.TransGen (pRel σ.folders) x x := by
  obtain ⟨hnd, hpo, hac, -⟩ := reachable_invP h
  exact ⟨fun f hf => reachesNull_true hnd hpo hac
      (mem_idsOf.mpr ⟨f, hf, rfl⟩) (Nat.lt_succ_self _), hac⟩

theorem C1_chains_terminate_witness :
    (∀ f ∈ ([⟨1, "a", 1, none⟩] : List FolderT),
      reachesNull [⟨1, "a", 1, none⟩] 2 f.id = true) ∧
    ∀ x, ¬ Relation.TransGen (pRel [⟨1, "a", 1, none⟩]) x x :=
  @C1_chains_terminate ⟨[⟨1, "a", 1, none⟩], []⟩
    (Relation.ReflTransGen.single
      (@Step.create emptyState ⟨[⟨1, "a", 1, none⟩], []⟩ 1 1 "a" none
        (by decide) (by decide)))

/-! ### Claim C4 — moving a folder under its own descendant -/

/-- C4: for every folder and every strict descendant of it, the update route
rejects re-parenting the folder under that descendant with
`circularReference`, and the store is unchanged (the error return precedes
the route's only write, so `runUpdate` is the identity here). -/
theorem C4_move_into_descendant {σ : StoreState} {u fid d : Nat} {nm : String}
    {folder dfolder : FolderT}
    (hinv : Inv σ = true)
    (hl : lookupFolder σ.folders fid = some folder) (ho : folder.ownerId = u)
    (hld : lookupFolder σ.folders d = some dfolder)
    (hdesc : Relation.TransGen (pRel σ.folders) d fid)
    (hn0 : (jsTrim nm).length ≠ 0) (hn255 : (jsTrim nm).length ≤ 255) :
    updateFolder σ u fid nm (some d) = .error .circularReference ∧
    runUpdate σ u fid nm (some d) = σ := by
  obtain ⟨hnd, hpo, hac, -⟩ := inv_elim hinv
  have hdne : d ≠ fid := by
    rintro rfl
    exact hac d hdesc
  have hdown : dfolder.ownerId = u := by
    rw [sub_owner_eq hnd hpo hdesc.to_reflTransGen hld hl]
    exact ho
  have hwalk : checkCircularReference σ.folders (σ.folders.length + 1)
      (some d) fid = true :=
    ccr_complete hnd hpo hac hdesc.to_reflTransGen
      (mem_idsOf.mpr ⟨dfolder, (lookupFolder_eq_some hld).1,
        (lookupFolder_eq_some hld).2⟩) (Nat.lt_succ_self _)
  have herr : updateFolder σ u fid nm (some d) = .error .circularReference := by
    unfold updateFolder
    rw [hl]
    dsimp only
    rw [if_neg (by simp [ho]), if_neg hn0, if_neg (by omega)]
    rw [if_neg hdne, hld]
    dsimp only
    rw [if_neg (by simp [hdown]), if_pos hwalk]
  refine ⟨herr, ?_⟩
  unfold runUpdate
  rw [herr]

theorem C4_move_into_descendant_witness :
    updateFolder ⟨[⟨1, "Docs", 1, none⟩, ⟨2, "2024", 1, some 1⟩], []⟩ 1 1
      "Docs" (some 2) = .error .circularReference ∧
    runUpdate ⟨[⟨1, "Docs", 1, none⟩, ⟨2, "2024", 1, some 1⟩], []⟩ 1 1
      "Docs" (some 2) = ⟨[⟨1, "Docs", 1, none⟩, ⟨2, "2024", 1, some 1⟩], []⟩ :=
  @C4_move_into_descendant
    ⟨[⟨1, "Docs", 1, none⟩, ⟨2, "2024", 1, some 1⟩], []⟩ 1 1 2 "Docs"
    ⟨1, "Docs", 1, none⟩ ⟨2, "2024", 1, some 1⟩
    (by decide) (by decide) (by decide) (by decide)
    (Relation.TransGen.single ⟨⟨2, "2024", 1, some 1⟩, by decide, by decide⟩)
    (by decide) (by decide)

end FileUploader
